import Mathlib

/-! sswc: a word-count utility (challenge-1/main.go)

A shallow embedding of `challenge-1/main.go` and of the parts of the Go
standard library it calls (`strings.Split`, `strings.Fields`, `flag`,
`os.ReadFile`, `os.Stat`, `io.Copy`), followed by theorems about it.

Go strings are byte sequences; they are modelled as lists of bytes.
-/

namespace Sswc

/-! ## Go strings -/

/-- A byte (Go `byte` / `uint8`). -/
abbrev Byte := Fin 256

/-- A Go `string` (equally a `[]byte`): an immutable sequence of bytes. -/
abbrev GoString := List Byte

/-- UTF-8 encoding of one code point, as the Go compiler encodes the
characters of a string literal. -/
def encodeChar (c : Char) : GoString :=
  let n := c.toNat
  if n < 0x80 then [Fin.ofNat n]
  else if n < 0x800 then [Fin.ofNat (0xC0 + n / 64), Fin.ofNat (0x80 + n % 64)]
  else if n < 0x10000 then
    [Fin.ofNat (0xE0 + n / 4096), Fin.ofNat (0x80 + n / 64 % 64), Fin.ofNat (0x80 + n % 64)]
  else
    [Fin.ofNat (0xF0 + n / 262144), Fin.ofNat (0x80 + n / 4096 % 64),
     Fin.ofNat (0x80 + n / 64 % 64), Fin.ofNat (0x80 + n % 64)]

/-- The Go string written as the literal `s` (its UTF-8 bytes). -/
def str (s : String) : GoString :=
  s.toList.flatMap encodeChar

/-- The newline byte, the separator `"\n"` of `lineCount`. -/
def newline : Byte := 10

/-! ## strings.Split with a one-byte separator -/

/-- Model of `strings.Split(s, sep)` for a separator of one byte: the segments
of `s` between the occurrences of `sep`, in order. Like the Go function it
returns `Count(s, sep) + 1` segments, so one empty segment for the empty
string. -/
def Split (sep : Byte) : GoString → List GoString
  | [] => [[]]
  | b :: rest =>
    if b = sep then [] :: Split sep rest
    else
      match Split sep rest with
      | [] => [[b]]
      | seg :: segs => (b :: seg) :: segs

/-! ## The counting functions of main.go -/

/-- Model of `lineCount` (main.go lines 32-42). -/
def lineCount (text : GoString) : Nat :=
  let lines := Split newline text
  if lines.length > 0 ∧ lines.getLast? = some [] then
    lines.length - 1
  else
    lines.length

/-- Model of `charCount` (main.go lines 49-52): `len(text)`, the number of bytes. -/
def charCount (text : GoString) : Nat :=
  text.length

/-! ## UTF-8 decoding and unicode.IsSpace -/

/-- The rune `utf8.RuneError` (U+FFFD), produced for every byte that does not
start a valid UTF-8 encoding. -/
def RuneError : Nat := 0xFFFD

/-- Whether the value of the byte `b` lies in `lo ..= hi`. -/
def inRange (lo hi : Nat) (b : Byte) : Bool :=
  decide (lo ≤ b.val) && decide (b.val ≤ hi)

/-- Model of `utf8.DecodeRuneInString` (the decoding a `range` loop over a
string performs): the first rune of `s` and its width in bytes. An invalid or
truncated encoding gives `(RuneError, 1)`; the empty string `(RuneError, 0)`.
Runes are modelled by their code point. -/
def DecodeRune : GoString → Nat × Nat
  | [] => (RuneError, 0)
  | b0 :: rest =>
    let x := b0.val
    if x < 0x80 then (x, 1)
    else if x < 0xC2 then (RuneError, 1)
    else if x < 0xE0 then
      match rest with
      | b1 :: _ =>
        if inRange 0x80 0xBF b1 then (x % 32 * 64 + b1.val % 64, 2) else (RuneError, 1)
      | [] => (RuneError, 1)
    else if x < 0xF0 then
      let lo := if x = 0xE0 then 0xA0 else 0x80
      let hi := if x = 0xED then 0x9F else 0xBF
      match rest with
      | b1 :: b2 :: _ =>
        if inRange lo hi b1 && inRange 0x80 0xBF b2 then
          (x % 16 * 4096 + b1.val % 64 * 64 + b2.val % 64, 3)
        else (RuneError, 1)
      | _ => (RuneError, 1)
    else if x < 0xF5 then
      let lo := if x = 0xF0 then 0x90 else 0x80
      let hi := if x = 0xF4 then 0x8F else 0xBF
      match rest with
      | b1 :: b2 :: b3 :: _ =>
        if inRange lo hi b1 && inRange 0x80 0xBF b2 && inRange 0x80 0xBF b3 then
          (x % 8 * 262144 + b1.val % 64 * 4096 + b2.val % 64 * 64 + b3.val % 64, 4)
        else (RuneError, 1)
      | _ => (RuneError, 1)
    else (RuneError, 1)

/-- The pairs `(index, rune)` a Go loop `for index, rune := range s` visits,
for the part of the string that starts at byte offset `i`; `skip` is the number
of bytes still to pass over because they belong to the rune decoded last. -/
def rangeFrom : Nat → Nat → GoString → List (Nat × Nat)
  | _, _, [] => []
  | i, 0, b :: rest =>
    (i, (DecodeRune (b :: rest)).1) :: rangeFrom (i + 1) ((DecodeRune (b :: rest)).2 - 1) rest
  | i, k + 1, _ :: rest => rangeFrom (i + 1) k rest

/-- The pairs `(index, rune)` of `for index, rune := range s`. -/
def rangeString (s : GoString) : List (Nat × Nat) :=
  rangeFrom 0 0 s

/-- The characters (runes) of a text, as Go decodes them. -/
def runes (s : GoString) : List Nat :=
  (rangeString s).map Prod.snd

/-- Model of `unicode.IsSpace`: the Latin-1 cases of the function and, above
Latin-1, the ranges of the `White_Space` table. -/
def IsSpace (r : Nat) : Bool :=
  if r ≤ 0xFF then
    r = 0x09 || r = 0x0A || r = 0x0B || r = 0x0C || r = 0x0D || r = 0x20 || r = 0x85 || r = 0xA0
  else
    r = 0x1680 || (decide (0x2000 ≤ r) && decide (r ≤ 0x200A)) || r = 0x2028 || r = 0x2029
      || r = 0x202F || r = 0x205F || r = 0x3000

/-! ## strings.FieldsFunc and strings.Fields -/

/-- One iteration of the loop of `strings.FieldsFunc` at `(end, rune)`: the
state is `start` (negative when no field is open) and the spans recorded. -/
def fieldsFuncStep (f : Nat → Bool) (st : Int × List (Nat × Nat)) (p : Nat × Nat) :
    Int × List (Nat × Nat) :=
  if f p.2 then
    if st.1 ≥ 0 then (-st.1 - 1, st.2 ++ [(st.1.toNat, p.1)]) else st
  else
    if st.1 < 0 then ((p.1 : Int), st.2) else st

/-- The spans `[start, end)` of the fields, as `strings.FieldsFunc` computes
them: the loop over the runes, then the field still open at the end. -/
def fieldSpans (f : Nat → Bool) (s : GoString) : List (Nat × Nat) :=
  let st := (rangeString s).foldl (fieldsFuncStep f) ((-1 : Int), [])
  if st.1 ≥ 0 then st.2 ++ [(st.1.toNat, s.length)] else st.2

/-- Model of `strings.FieldsFunc(s, f)`: the substrings of the recorded spans. -/
def FieldsFunc (s : GoString) (f : Nat → Bool) : List GoString :=
  (fieldSpans f s).map (fun sp => (s.drop sp.1).take (sp.2 - sp.1))

/-- The table `asciiSpace` of package strings. -/
def asciiSpace (b : Byte) : Nat :=
  if b = 9 ∨ b = 10 ∨ b = 11 ∨ b = 12 ∨ b = 13 ∨ b = 32 then 1 else 0

/-- One iteration of the counting loop of `strings.Fields`; the state is
`(n, wasSpace, setBits)`. The Go expression `wasSpace & ^isSpace` on the
values 0 and 1 is 1 exactly when `wasSpace` is 1 and `isSpace` is 0. -/
def fieldsCountStep (st : Nat × Nat × Nat) (r : Byte) : Nat × Nat × Nat :=
  let setBits := st.2.2 ||| r.val
  let isSpace := asciiSpace r
  let n := st.1 + (st.2.1 &&& (1 - isSpace))
  (n, isSpace, setBits)

/-- The counting loop of `strings.Fields`: `(n, wasSpace, setBits)` at its end. -/
def fieldsCount (s : GoString) : Nat × Nat × Nat :=
  s.foldl fieldsCountStep (0, 1, 0)

/-- The fields the ASCII path of `strings.Fields` meets, in order: `cur` is
the field being read, if any (leading and repeated white space is skipped, the
last field may end at the end of the string). -/
def scanFields : Option GoString → GoString → List GoString
  | none, [] => []
  | some f, [] => [f]
  | none, b :: rest =>
    if asciiSpace b ≠ 0 then scanFields none rest else scanFields (some [b]) rest
  | some f, b :: rest =>
    if asciiSpace b ≠ 0 then f :: scanFields none rest else scanFields (some (f ++ [b])) rest

/-- The stores `a[na] = field; na++` of the ASCII path of `strings.Fields`. -/
def storeFields (a : List GoString) : Nat → List GoString → List GoString
  | _, [] => a
  | na, f :: fs => storeFields (a.set na f) (na + 1) fs

/-- Model of `strings.Fields(s)`: when a byte of `s` is not ASCII the result
is `FieldsFunc(s, unicode.IsSpace)`; otherwise a slice of `n` strings, `n`
being the count of the first loop, filled with the fields in order. -/
def Fields (s : GoString) : List GoString :=
  let c := fieldsCount s
  if c.2.2 ≥ 0x80 then FieldsFunc s IsSpace
  else storeFields (List.replicate c.1 []) 0 (scanFields none s)

/-- Model of `wordCount` (main.go lines 44-47). -/
def wordCount (text : GoString) : Nat :=
  (Fields text).length

/-! ## Errors, the file system and the input stream -/

/-- A Go `*fs.PathError`, the error of `os.ReadFile` and `os.Stat`. -/
structure PathError where
  op : String
  path : GoString
  errno : Nat
deriving DecidableEq

/-- The errors `sswc` can return. The first four are the errors of
`FlagSet.Parse` (`bad flag syntax: %s`, `flag provided but not defined: -%s`,
`flag.ErrHelp`, `invalid boolean value %q for -%s`), then the error of
`os.ReadFile` or `os.Stat`, the error of a failed read of the stream, and
`errors.New("no input provided")`. -/
inductive Error where
  | badFlagSyntax (s : GoString)
  | flagNotDefined (name : GoString)
  | errHelp
  | invalidBoolValue (value name : GoString)
  | path (e : PathError)
  | read (code : Nat)
  | noInput
deriving DecidableEq

/-- The state of the file system as `sswc` observes it: what reading a named
file to its end gives and what `stat` reports as its size (an `int64`). The two
are independent: the size reported need not be the length of what is read. -/
structure FileSystem where
  readFile : GoString → Except PathError GoString
  stat : GoString → Except PathError Int

/-- The error number `ENOENT`. -/
def ENOENT : Nat := 2

/-- Model of `os.ReadFile`: the empty path names no file. -/
def osReadFile (fs : FileSystem) (name : GoString) : Except PathError GoString :=
  if name = [] then .error ⟨"open", name, ENOENT⟩ else fs.readFile name

/-- Model of `os.Stat` followed by `info.Size()`: the empty path names no file. -/
def osStat (fs : FileSystem) (name : GoString) : Except PathError Int :=
  if name = [] then .error ⟨"stat", name, ENOENT⟩ else fs.stat name

/-- A non-nil `io.Reader`: the chunks its successive `Read` calls deliver, then
the end of the stream (`none`, that is `io.EOF`) or a read error. -/
structure Reader where
  chunks : List GoString
  failure : Option Nat

/-- Model of `readStream` (main.go lines 13-21): `io.Copy` into a buffer; the
bytes read so far are dropped when a read fails. -/
def readStream (r : Reader) : Except Error GoString :=
  match r.failure with
  | some code => .error (.read code)
  | none => .ok r.chunks.flatten

/-- Model of `byteCount` (main.go lines 23-30). -/
def byteCount (fs : FileSystem) (fileName : GoString) : Except Error Int :=
  match osStat fs fileName with
  | .error e => .error (.path e)
  | .ok size => .ok size

/-! ## Package flag -/

/-- The values of the four boolean flags of the flag set. -/
structure Flags where
  c : Bool
  l : Bool
  w : Bool
  m : Bool
deriving DecidableEq

/-- The names defined in the flag set. -/
inductive FlagName where
  | c | l | w | m
deriving DecidableEq

/-- The byte `-`. -/
def minus : Byte := 45

/-- The byte `=`. -/
def equals : Byte := 61

/-- The map `f.formal`: the flag a name denotes, if it is defined. -/
def lookupFlag (name : GoString) : Option FlagName :=
  if name = [99] then some .c
  else if name = [108] then some .l
  else if name = [119] then some .w
  else if name = [109] then some .m
  else none

/-- Assignment to the variable of a flag (`boolValue.Set`). -/
def Flags.set (fl : Flags) : FlagName → Bool → Flags
  | .c, v => ⟨v, fl.l, fl.w, fl.m⟩
  | .l, v => ⟨fl.c, v, fl.w, fl.m⟩
  | .w, v => ⟨fl.c, fl.l, v, fl.m⟩
  | .m, v => ⟨fl.c, fl.l, fl.w, v⟩

/-- Model of `strconv.ParseBool`. -/
def ParseBool (v : GoString) : Option Bool :=
  if v ∈ [str "1", str "t", str "T", str "TRUE", str "true", str "True"] then some true
  else if v ∈ [str "0", str "f", str "F", str "FALSE", str "false", str "False"] then some false
  else none

/-- The text before and after the first occurrence of the byte `sep`. -/
def cutAt (sep : Byte) : GoString → Option (GoString × GoString)
  | [] => none
  | b :: rest =>
    if b = sep then some ([], rest)
    else
      match cutAt sep rest with
      | some (pre, post) => some (b :: pre, post)
      | none => none

/-- The loop of `parseOne` that looks for `=` from index 1 of the name: the
name proper and the value, if one is given. -/
def splitValue : GoString → GoString × Option GoString
  | [] => ([], none)
  | b :: rest =>
    match cutAt equals rest with
    | some (pre, post) => (b :: pre, some post)
    | none => (b :: rest, none)

/-- What one call of `FlagSet.parseOne` does. -/
inductive ParseOne where
  /-- `(true, nil)`: a flag was read and the first argument consumed. -/
  | seen (fl : Flags)
  /-- `(false, nil)`: flag parsing ends; `args` are the arguments left. -/
  | stop (args : List GoString)
  /-- `(false, err)`. -/
  | fail (e : Error)

/-- Model of `FlagSet.parseOne` on the arguments `s :: rest`. -/
def parseOne (fl : Flags) (s : GoString) (rest : List GoString) : ParseOne :=
  if s.length < 2 ∨ s.head? ≠ some minus then .stop (s :: rest)
  else
    let numMinuses := if s.get? 1 = some minus then 2 else 1
    if numMinuses = 2 ∧ s.length = 2 then .stop rest
    else
      let name := s.drop numMinuses
      if name.length = 0 ∨ name.head? = some minus ∨ name.head? = some equals then
        .fail (.badFlagSyntax s)
      else
        let nv := splitValue name
        match lookupFlag nv.1 with
        | none =>
          if nv.1 = str "help" ∨ nv.1 = str "h" then .fail .errHelp
          else .fail (.flagNotDefined nv.1)
        | some flag =>
          match nv.2 with
          | some value =>
            match ParseBool value with
            | none => .fail (.invalidBoolValue value nv.1)
            | some v => .seen (fl.set flag v)
          | none => .seen (fl.set flag true)

/-- Model of `FlagSet.Parse` with `flag.ContinueOnError`: `parseOne` is
repeated while it sees a flag; the result is the values of the flags and the
arguments left (`flagSet.Args()`), or the first error. -/
def Parse (fl : Flags) : List GoString → Except Error (Flags × List GoString)
  | [] => .ok (fl, [])
  | s :: rest =>
    match parseOne fl s rest with
    | .seen fl1 => Parse fl1 rest
    | .stop args => .ok (fl, args)
    | .fail e => .error e

/-! ## sswc -/

/-- An access to the environment. -/
inductive Event where
  | readFile (name : GoString)
  | readStream
  | stat (name : GoString)
deriving DecidableEq

/-- What a call of `sswc` returns, the string and the error (`none` is `nil`),
together with the accesses to the environment it made, in order. -/
structure Run where
  out : String
  err : Option Error
  events : List Event
deriving DecidableEq

/-- Rendering of `fmt.Sprintf("%d", v)`. -/
def Sprintf (v : Int) : String :=
  toString v

/-- Rendering of `strings.Join(result, " ")`. -/
def Join (result : List String) : String :=
  String.intercalate " " result

/-- Lines 109-119 of `sswc`: the counts of `-m`, `-l` and `-w`, appended to
`result` in this order. -/
def appendCounts (fl : Flags) (contents : GoString) (result : List String) : List String :=
  let result := if fl.m then result ++ [Sprintf (charCount contents)] else result
  let result := if fl.l then result ++ [Sprintf (lineCount contents)] else result
  let result := if fl.w then result ++ [Sprintf (wordCount contents)] else result
  result

/-- Lines 109-131 of `sswc`: the counts after the byte count, then the default
triple when `result` is still empty, then the join. -/
def sswcCounts (fl : Flags) (fs : FileSystem) (fileName contents : GoString)
    (result : List String) (events : List Event) : Run :=
  let result := appendCounts fl contents result
  if result.length = 0 then
    let result := result ++ [Sprintf (lineCount contents)]
    let result := result ++ [Sprintf (wordCount contents)]
    match byteCount fs fileName with
    | .error byteCountErr => ⟨"", some byteCountErr, events ++ [.stat fileName]⟩
    | .ok byteCountValue =>
      ⟨Join (result ++ [Sprintf byteCountValue]), none, events ++ [.stat fileName]⟩
  else
    ⟨Join result, none, events⟩

/-- Lines 96-131 of `sswc`: the counting once the content is read. -/
def sswcData (fl : Flags) (fs : FileSystem) (fileName data : GoString)
    (events : List Event) : Run :=
  let contents := data
  let result : List String := []
  if fl.c then
    match byteCount fs fileName with
    | .error byteCountErr => ⟨"", some byteCountErr, events ++ [.stat fileName]⟩
    | .ok byteCountValue =>
      sswcCounts fl fs fileName contents (result ++ [Sprintf byteCountValue])
        (events ++ [.stat fileName])
  else
    sswcCounts fl fs fileName contents result events

/-- The values of the flags as lines 59-62 define them: every flag is `false`. -/
def noFlags : Flags :=
  ⟨false, false, false, false⟩

/-- Lines 73-76 of `sswc`: the file name is the first of the arguments left
after the flags, and the empty string when there is none. -/
def firstArg : List GoString → GoString
  | [] => []
  | first :: _ => first

/-- Model of `sswc` (main.go lines 54-132). `stream` is `none` for a nil reader. -/
def sswc (args : List GoString) (stream : Option Reader) (fs : FileSystem) : Run :=
  match Parse noFlags args with
  | .error err => ⟨"", some err, []⟩
  | .ok (fl, fileArgs) =>
    let fileName : GoString := firstArg fileArgs
    if fileName ≠ [] then
      match osReadFile fs fileName with
      | .error err => ⟨"", some (.path err), [.readFile fileName]⟩
      | .ok data => sswcData fl fs fileName data [.readFile fileName]
    else
      match stream with
      | some r =>
        match readStream r with
        | .error err => ⟨"", some err, [.readStream]⟩
        | .ok data => sswcData fl fs fileName data [.readStream]
      | none => ⟨"", some .noInput, []⟩

/-- A file system with one file, of the given name, content and reported size. -/
def oneFile (name content : GoString) (size : Int) : FileSystem :=
  ⟨fun n => if n = name then .ok content else .error ⟨"open", n, ENOENT⟩,
   fun n => if n = name then .ok size else .error ⟨"stat", n, ENOENT⟩⟩

/-- A file system in which no path names a file. -/
def noFile : FileSystem :=
  ⟨fun n => .error ⟨"open", n, ENOENT⟩, fun n => .error ⟨"stat", n, ENOENT⟩⟩

/-- A stream that delivers `content` in one chunk and then ends. -/
def stdin (content : GoString) : Reader :=
  ⟨[content], none⟩

/-! ## Definitions that follow the wording of the specification -/

/-- The rule of the specification for the line count, as it is worded: the
number of segments of the split on the newline, less one exactly when the
content is non-empty and the final segment is empty. -/
def lineCountRule (C : GoString) : Nat :=
  let segments := Split newline C
  if C ≠ [] ∧ segments.getLast? = some [] then segments.length - 1 else segments.length

/-- The counts the flags select, in the order byte, character, line, word, for
a reported size `S` and a content `D`. -/
def selectedCounts (fl : Flags) (S : Int) (D : GoString) : List Int :=
  (if fl.c then [S] else []) ++ (if fl.m then [(charCount D : Int)] else [])
    ++ (if fl.l then [(lineCount D : Int)] else [])
    ++ (if fl.w then [(wordCount D : Int)] else [])

/-- The default triple: line count, word count, byte count. -/
def defaultTriple (S : Int) (D : GoString) : List Int :=
  [(lineCount D : Int), (wordCount D : Int), S]

/-- The four flags as they are written on the command line. -/
def flagTokens : List GoString :=
  [str "-c", str "-m", str "-l", str "-w"]

/-- The flags after the tokens `ts`, each one of the four flags as written on
the command line: a flag is set when it was set before or its token occurs. -/
def setTokens (fl : Flags) (ts : List GoString) : Flags :=
  ⟨fl.c || decide (str "-c" ∈ ts), fl.l || decide (str "-l" ∈ ts),
   fl.w || decide (str "-w" ∈ ts), fl.m || decide (str "-m" ∈ ts)⟩

/-- The interval `[i, j)` of positions is a maximal run of consecutive
non-whitespace characters of a text whose characters are classified by `ws`
(`true` for white space): it is not empty, every character in it is not white
space, and it can be extended neither to the left nor to the right. -/
@[reducible] def IsMaximalRun (ws : List Bool) (i j : Nat) : Prop :=
  i < j ∧ j ≤ ws.length ∧ (∀ k, i ≤ k → k < j → ws[k]? = some false)
    ∧ (i = 0 ∨ ws[i - 1]? = some true) ∧ (j = ws.length ∨ ws[j]? = some true)

/-- The maximal runs of consecutive non-whitespace characters. -/
def maximalRuns (ws : List Bool) : Finset (Nat × Nat) :=
  ((Finset.range (ws.length + 1)) ×ˢ (Finset.range (ws.length + 1))).filter
    (fun p => IsMaximalRun ws p.1 p.2)

/-- The classification of the characters of a text by `unicode.IsSpace`. -/
def whitespace (T : GoString) : List Bool :=
  (runes T).map IsSpace

/-- The runes of `for _, rune := range s` alone, `skip` being the number of
bytes still to pass over: `rangeFrom` without the indices. -/
def decodeFrom : Nat → GoString → List Nat
  | _, [] => []
  | 0, b :: rest => (DecodeRune (b :: rest)).1 :: decodeFrom ((DecodeRune (b :: rest)).2 - 1) rest
  | k + 1, _ :: rest => decodeFrom k rest

/-- The number of bytes an encoding that starts with the byte `b` takes when it
is valid (the table `first` of package utf8); 1 for a byte that starts none. -/
def runeSize (b : Byte) : Nat :=
  if b.val < 0xC2 then 1
  else if b.val < 0xE0 then 2
  else if b.val < 0xF0 then 3
  else if b.val < 0xF5 then 4
  else 1

/-- A UTF-8 continuation byte, `0x80` to `0xBF`. -/
def isContinuation (b : Byte) : Bool :=
  inRange 0x80 0xBF b

/-- The four flags written without a value, with one dash or with two. -/
def plainFlagTokens : List GoString :=
  [str "-c", str "--c", str "-m", str "--m", str "-l", str "--l", str "-w", str "--w"]

/-- The flags after the tokens `ts`, each a flag written without a value: a
flag is set when it was set before or one of its two tokens occurs. -/
def setPlainTokens (fl : Flags) (ts : List GoString) : Flags :=
  ⟨fl.c || decide (str "-c" ∈ ts ∨ str "--c" ∈ ts),
   fl.l || decide (str "-l" ∈ ts ∨ str "--l" ∈ ts),
   fl.w || decide (str "-w" ∈ ts ∨ str "--w" ∈ ts),
   fl.m || decide (str "-m" ∈ ts ∨ str "--m" ∈ ts)⟩

/-! ## Theorems: strings.Split and lineCount -/

theorem Split_ne_nil (sep : Byte) (s : GoString) : Split sep s ≠ [] := by
  cases s with
  | nil => simp [Split]
  | cons b rest =>
    unfold Split
    split
    · simp
    · split <;> simp

theorem length_Split (sep : Byte) (s : GoString) :
    (Split sep s).length = s.count sep + 1 := by
  induction s with
  | nil => simp [Split]
  | cons b rest ih =>
    unfold Split
    by_cases h : b = sep
    · simp [h, ih]
    · have hc : (b :: rest).count sep = rest.count sep := by
        rw [List.count_cons]; simp [h]
      rw [if_neg h, hc]
      split
      · rename_i heq; exact absurd heq (Split_ne_nil sep rest)
      · rename_i seg segs heq
        rw [heq] at ih; simpa using ih

theorem getLast?_Split_snoc (sep : Byte) (s : GoString) (b : Byte) :
    (Split sep (s ++ [b])).getLast? = some [] ↔ b = sep := by
  induction s with
  | nil =>
    by_cases h : b = sep <;> simp [Split, h]
  | cons a s ih =>
    rw [List.cons_append]
    unfold Split
    by_cases ha : a = sep
    · rw [if_pos ha]
      obtain ⟨x, xs, hx⟩ := List.exists_cons_of_ne_nil (Split_ne_nil sep (s ++ [b]))
      rw [hx] at ih ⊢
      rw [List.getLast?_cons_cons]
      exact ih
    · rw [if_neg ha]
      have hl := length_Split sep (s ++ [b])
      split
      · rename_i heq; exact absurd heq (Split_ne_nil sep _)
      · rename_i seg segs heq
        rw [heq] at ih hl
        cases segs with
        | nil =>
          constructor
          · intro h; simp at h
          · intro h
            subst h
            simp at hl
        | cons x xs =>
          simpa using ih

/-- The final segment of the split is empty exactly for the empty text and for
a text that ends with the separator. -/
theorem getLast?_Split_eq_nil_iff (sep : Byte) (s : GoString) :
    (Split sep s).getLast? = some [] ↔ s = [] ∨ s.getLast? = some sep := by
  rcases List.eq_nil_or_concat s with h | ⟨t, b, h⟩
  · subst h; simp [Split]
  · subst h
    rw [List.concat_eq_append, getLast?_Split_snoc, List.getLast?_concat]
    constructor
    · intro h; exact Or.inr (by rw [h])
    · rintro (h | h)
      · simp at h
      · exact Option.some.inj h

theorem lineCount_eq_segments (C : GoString) :
    lineCount C = (Split newline C).length
      - (if (Split newline C).getLast? = some [] then 1 else 0) := by
  have hpos : (Split newline C).length > 0 := by
    rw [length_Split]; omega
  unfold lineCount
  by_cases h : (Split newline C).getLast? = some []
  · simp [h, hpos]
  · simp [h]

/-- C3: for every content, `lineCount` is the number of newline bytes, plus one
exactly when the content is non-empty and does not end with a newline; the
empty content has 0 lines, and the three listed contents have 3, 3 and 4. -/
theorem lineCount_eq_count_newlines :
    (∀ C : GoString, lineCount C
        = C.count newline + (if C ≠ [] ∧ C.getLast? ≠ some newline then 1 else 0))
    ∧ lineCount (str "") = 0
    ∧ lineCount (str "a\nb\nc\n") = 3
    ∧ lineCount (str "a\nb\nc") = 3
    ∧ lineCount (str "a\nb\nc\n\n") = 4 := by
  refine ⟨?_, by decide, by decide, by decide, by decide⟩
  intro C
  rw [lineCount_eq_segments, length_Split]
  by_cases h : (Split newline C).getLast? = some []
  · have h2 := (getLast?_Split_eq_nil_iff newline C).1 h
    have h3 : ¬ (C ≠ [] ∧ C.getLast? ≠ some newline) := by
      rintro ⟨h4, h5⟩
      rcases h2 with h2 | h2
      · exact h4 h2
      · exact h5 h2
    simp [h, h3]
  · have h3 : C ≠ [] ∧ C.getLast? ≠ some newline := by
      constructor
      · intro h4; exact h ((getLast?_Split_eq_nil_iff newline C).2 (Or.inl h4))
      · intro h4; exact h ((getLast?_Split_eq_nil_iff newline C).2 (Or.inr h4))
    simp [h, h3]

/-- C4, as stated, fails: the rule of the specification gives the empty
content one line, `lineCount` gives it none. -/
theorem lineCount_empty_not_rule :
    lineCountRule [] = 1 ∧ lineCount [] = 0 ∧ lineCount [] ≠ lineCountRule [] := by
  decide

/-- C4, amended: `lineCount` is the number of segments of the split on the
newline, less one exactly when the final segment is empty, the content being
empty or not; this is the rule of the specification on every non-empty
content, and the empty content, whose single segment is empty, has 0 lines. -/
theorem lineCount_segments_rule (C : GoString) :
    lineCount C = (Split newline C).length
        - (if (Split newline C).getLast? = some [] then 1 else 0)
    ∧ (C ≠ [] → lineCount C = lineCountRule C)
    ∧ (C = [] → lineCount C = 0) := by
  refine ⟨lineCount_eq_segments C, ?_, ?_⟩
  · intro hC
    rw [lineCount_eq_segments]
    unfold lineCountRule
    by_cases h : (Split newline C).getLast? = some []
    · simp [h, hC]
    · simp [h]
  · intro hC
    subst hC
    decide

theorem lineCount_segments_rule_witness :
    lineCount (str "a\nb\n") = lineCountRule (str "a\nb\n") ∧ lineCount (str "a\nb\n") = 2 :=
  ⟨(lineCount_segments_rule (str "a\nb\n")).2.1 (by decide), by decide⟩

/-! ## Theorems: sswc -/

theorem toString_natCast (n : Nat) : toString (n : Int) = toString n := rfl

theorem byteCount_ok (fs : FileSystem) (f : GoString) (S : Int) (hf : f ≠ [])
    (hs : fs.stat f = .ok S) : byteCount fs f = .ok S := by
  simp [byteCount, osStat, hf, hs]

theorem byteCount_empty (fs : FileSystem) :
    byteCount fs [] = .error (.path ⟨"stat", [], ENOENT⟩) := by
  simp [byteCount, osStat]

theorem sswc_file (args rest : List GoString) (stream : Option Reader) (fs : FileSystem)
    (fl : Flags) (f D : GoString) (hparse : Parse noFlags args = .ok (fl, f :: rest))
    (hf : f ≠ []) (hr : fs.readFile f = .ok D) :
    sswc args stream fs = sswcData fl fs f D [.readFile f] := by
  simp [sswc, hparse, firstArg, hf, osReadFile, hr]

theorem sswc_stream (args fileArgs : List GoString) (r : Reader) (fs : FileSystem)
    (fl : Flags) (hparse : Parse noFlags args = .ok (fl, fileArgs))
    (hf : firstArg fileArgs = []) (hr : r.failure = none) :
    sswc args (some r) fs = sswcData fl fs [] r.chunks.flatten [.readStream] := by
  simp [sswc, hparse, hf, readStream, hr]

theorem sswcData_ok (fl : Flags) (fs : FileSystem) (f D : GoString) (S : Int)
    (events : List Event) (hb : byteCount fs f = .ok S) :
    (sswcData fl fs f D events).err = none
    ∧ (sswcData fl fs f D events).out = String.intercalate " "
        ((if fl = noFlags then defaultTriple S D else selectedCounts fl S D).map toString) := by
  rcases fl with ⟨c, l, w, m⟩
  cases c <;> cases l <;> cases w <;> cases m <;>
    simp [sswcData, sswcCounts, appendCounts, hb, noFlags, defaultTriple, selectedCounts,
      Sprintf, Join]

theorem str_flag_c : str "-c" = [45, 99] := by decide

theorem str_flag_m : str "-m" = [45, 109] := by decide

theorem str_flag_l : str "-l" = [45, 108] := by decide

theorem str_flag_w : str "-w" = [45, 119] := by decide

theorem Parse_flagTokens_append (ts tail : List GoString) (fl : Flags)
    (h : ∀ t ∈ ts, t ∈ flagTokens) :
    Parse fl (ts ++ tail) = Parse (setTokens fl ts) tail := by
  induction ts generalizing fl with
  | nil =>
    rcases fl with ⟨c, l, w, m⟩
    simp [setTokens]
  | cons t ts ih =>
    have ht : t ∈ flagTokens := h t (List.mem_cons_self _ _)
    have hts : ∀ u ∈ ts, u ∈ flagTokens := fun u hu => h u (List.mem_cons_of_mem _ hu)
    rcases fl with ⟨c, l, w, m⟩
    simp only [flagTokens, str_flag_c, str_flag_m, str_flag_l, str_flag_w, List.mem_cons,
      List.mem_singleton, List.not_mem_nil, or_false] at ht
    rcases ht with rfl | rfl | rfl | rfl
    · have h1 : parseOne ⟨c, l, w, m⟩ [45, 99] (ts ++ tail) = .seen ⟨true, l, w, m⟩ := rfl
      rw [List.cons_append, Parse, h1]
      simp only []
      rw [ih _ hts]
      simp [setTokens, str_flag_c, str_flag_m, str_flag_l, str_flag_w]
    · have h1 : parseOne ⟨c, l, w, m⟩ [45, 109] (ts ++ tail) = .seen ⟨c, l, w, true⟩ := rfl
      rw [List.cons_append, Parse, h1]
      simp only []
      rw [ih _ hts]
      simp [setTokens, str_flag_c, str_flag_m, str_flag_l, str_flag_w]
    · have h1 : parseOne ⟨c, l, w, m⟩ [45, 108] (ts ++ tail) = .seen ⟨c, true, w, m⟩ := rfl
      rw [List.cons_append, Parse, h1]
      simp only []
      rw [ih _ hts]
      simp [setTokens, str_flag_c, str_flag_m, str_flag_l, str_flag_w]
    · have h1 : parseOne ⟨c, l, w, m⟩ [45, 119] (ts ++ tail) = .seen ⟨c, l, true, m⟩ := rfl
      rw [List.cons_append, Parse, h1]
      simp only []
      rw [ih _ hts]
      simp [setTokens, str_flag_c, str_flag_m, str_flag_l, str_flag_w]

theorem setTokens_congr (fl : Flags) (ts1 ts2 : List GoString)
    (h : ∀ t, t ∈ ts1 ↔ t ∈ ts2) : setTokens fl ts1 = setTokens fl ts2 := by
  simp [setTokens, h]

theorem str_flag_cc : str "--c" = [45, 45, 99] := by decide

theorem str_flag_mm : str "--m" = [45, 45, 109] := by decide

theorem str_flag_ll : str "--l" = [45, 45, 108] := by decide

theorem str_flag_ww : str "--w" = [45, 45, 119] := by decide

theorem Parse_plainFlagTokens_append (ts tail : List GoString) (fl : Flags)
    (h : ∀ t ∈ ts, t ∈ plainFlagTokens) :
    Parse fl (ts ++ tail) = Parse (setPlainTokens fl ts) tail := by
  induction ts generalizing fl with
  | nil =>
    rcases fl with ⟨c, l, w, m⟩
    simp [setPlainTokens]
  | cons t ts ih =>
    have ht : t ∈ plainFlagTokens := h t (List.mem_cons_self _ _)
    have hts : ∀ u ∈ ts, u ∈ plainFlagTokens := fun u hu => h u (List.mem_cons_of_mem _ hu)
    rcases fl with ⟨c, l, w, m⟩
    simp only [plainFlagTokens, str_flag_c, str_flag_m, str_flag_l, str_flag_w, str_flag_cc,
      str_flag_mm, str_flag_ll, str_flag_ww, List.mem_cons, List.mem_singleton,
      List.not_mem_nil, or_false] at ht
    rcases ht with rfl | rfl | rfl | rfl | rfl | rfl | rfl | rfl
    · have h1 : parseOne ⟨c, l, w, m⟩ [45, 99] (ts ++ tail) = .seen ⟨true, l, w, m⟩ := rfl
      rw [List.cons_append, Parse, h1]
      simp only []
      rw [ih _ hts]
      simp [setPlainTokens, str_flag_c, str_flag_m, str_flag_l, str_flag_w, str_flag_cc,
        str_flag_mm, str_flag_ll, str_flag_ww]
    · have h1 : parseOne ⟨c, l, w, m⟩ [45, 45, 99] (ts ++ tail) = .seen ⟨true, l, w, m⟩ := rfl
      rw [List.cons_append, Parse, h1]
      simp only []
      rw [ih _ hts]
      simp [setPlainTokens, str_flag_c, str_flag_m, str_flag_l, str_flag_w, str_flag_cc,
        str_flag_mm, str_flag_ll, str_flag_ww]
    · have h1 : parseOne ⟨c, l, w, m⟩ [45, 109] (ts ++ tail) = .seen ⟨c, l, w, true⟩ := rfl
      rw [List.cons_append, Parse, h1]
      simp only []
      rw [ih _ hts]
      simp [setPlainTokens, str_flag_c, str_flag_m, str_flag_l, str_flag_w, str_flag_cc,
        str_flag_mm, str_flag_ll, str_flag_ww]
    · have h1 : parseOne ⟨c, l, w, m⟩ [45, 45, 109] (ts ++ tail) = .seen ⟨c, l, w, true⟩ := rfl
      rw [List.cons_append, Parse, h1]
      simp only []
      rw [ih _ hts]
      simp [setPlainTokens, str_flag_c, str_flag_m, str_flag_l, str_flag_w, str_flag_cc,
        str_flag_mm, str_flag_ll, str_flag_ww]
    · have h1 : parseOne ⟨c, l, w, m⟩ [45, 108] (ts ++ tail) = .seen ⟨c, true, w, m⟩ := rfl
      rw [List.cons_append, Parse, h1]
      simp only []
      rw [ih _ hts]
      simp [setPlainTokens, str_flag_c, str_flag_m, str_flag_l, str_flag_w, str_flag_cc,
        str_flag_mm, str_flag_ll, str_flag_ww]
    · have h1 : parseOne ⟨c, l, w, m⟩ [45, 45, 108] (ts ++ tail) = .seen ⟨c, true, w, m⟩ := rfl
      rw [List.cons_append, Parse, h1]
      simp only []
      rw [ih _ hts]
      simp [setPlainTokens, str_flag_c, str_flag_m, str_flag_l, str_flag_w, str_flag_cc,
        str_flag_mm, str_flag_ll, str_flag_ww]
    · have h1 : parseOne ⟨c, l, w, m⟩ [45, 119] (ts ++ tail) = .seen ⟨c, l, true, m⟩ := rfl
      rw [List.cons_append, Parse, h1]
      simp only []
      rw [ih _ hts]
      simp [setPlainTokens, str_flag_c, str_flag_m, str_flag_l, str_flag_w, str_flag_cc,
        str_flag_mm, str_flag_ll, str_flag_ww]
    · have h1 : parseOne ⟨c, l, w, m⟩ [45, 45, 119] (ts ++ tail) = .seen ⟨c, l, true, m⟩ := rfl
      rw [List.cons_append, Parse, h1]
      simp only []
      rw [ih _ hts]
      simp [setPlainTokens, str_flag_c, str_flag_m, str_flag_l, str_flag_w, str_flag_cc,
        str_flag_mm, str_flag_ll, str_flag_ww]

theorem setPlainTokens_congr (fl : Flags) (ts1 ts2 : List GoString)
    (h : ∀ t, t ∈ ts1 ↔ t ∈ ts2) : setPlainTokens fl ts1 = setPlainTokens fl ts2 := by
  simp [setPlainTokens, h]

/-- C1, as stated, fails: two argument lists that parse with a flag set, name
the same readable file and hold the same flags in another order give different
results, because a flag can be written with a value and the last value given
decides: `-l -c -c=false f` gives `"2"` and `-l -c=false -c f` gives `"12 2"`. -/
theorem sswc_flag_order_matters :
    Parse noFlags [str "-l", str "-c", str "-c=false", str "f"]
        = .ok (⟨false, true, false, false⟩, [str "f"])
    ∧ Parse noFlags [str "-l", str "-c=false", str "-c", str "f"]
        = .ok (⟨true, true, false, false⟩, [str "f"])
    ∧ List.Perm [str "-l", str "-c", str "-c=false", str "f"]
        [str "-l", str "-c=false", str "-c", str "f"]
    ∧ sswc [str "-l", str "-c", str "-c=false", str "f"] none
        (oneFile (str "f") (str "foo bar\nbaz\n") 12)
      = ⟨"2", none, [.readFile (str "f")]⟩
    ∧ sswc [str "-l", str "-c=false", str "-c", str "f"] none
        (oneFile (str "f") (str "foo bar\nbaz\n") 12)
      = ⟨"12 2", none, [.readFile (str "f"), .stat (str "f")]⟩
    ∧ sswc [str "-l", str "-c", str "-c=false", str "f"] none
        (oneFile (str "f") (str "foo bar\nbaz\n") 12)
      ≠ sswc [str "-l", str "-c=false", str "-c", str "f"] none
        (oneFile (str "f") (str "foo bar\nbaz\n") 12) := by
  refine ⟨rfl, rfl, ?_, by decide, by decide, by decide⟩
  exact List.Perm.cons _ (List.Perm.swap _ _ _)

/-- C1, amended: when the arguments parse with at least one flag set and the
file `f` is readable (content `D`, reported size `S`), `sswc` returns no error
and the selected counts in the order byte, character, line, word, in decimal,
joined by single spaces; the result depends on the arguments only through the
values of the flags after parsing and the file name; the order and repetition
of flags written without a value (`-c`, `-m`, `-l`, `-w`, with one dash or two)
do not change the result; `-l -w` on `"foo bar\nbaz\n"` gives `"2 3"`. -/
theorem sswc_selected_counts :
    (∀ (args rest : List GoString) (stream : Option Reader) (fs : FileSystem) (fl : Flags)
        (f D : GoString) (S : Int),
        Parse noFlags args = .ok (fl, f :: rest) →
        (fl.c = true ∨ fl.m = true ∨ fl.l = true ∨ fl.w = true) →
        f ≠ [] → fs.readFile f = .ok D → fs.stat f = .ok S →
        (sswc args stream fs).err = none
        ∧ (sswc args stream fs).out
            = String.intercalate " " ((selectedCounts fl S D).map toString))
    ∧ (∀ (args1 args2 rest1 rest2 : List GoString) (fl : Flags) (f : GoString)
        (stream : Option Reader) (fs : FileSystem),
        Parse noFlags args1 = .ok (fl, f :: rest1) →
        Parse noFlags args2 = .ok (fl, f :: rest2) →
        sswc args1 stream fs = sswc args2 stream fs)
    ∧ (∀ (ts1 ts2 tail : List GoString) (stream : Option Reader) (fs : FileSystem),
        (∀ t ∈ ts1, t ∈ plainFlagTokens) → (∀ t ∈ ts2, t ∈ plainFlagTokens) →
        (∀ t, t ∈ ts1 ↔ t ∈ ts2) →
        sswc (ts1 ++ tail) stream fs = sswc (ts2 ++ tail) stream fs)
    ∧ sswc [str "-l", str "-w", str "f"] none (oneFile (str "f") (str "foo bar\nbaz\n") 12)
        = ⟨"2 3", none, [.readFile (str "f")]⟩ := by
  refine ⟨?_, ?_, ?_, by decide⟩
  · intro args rest stream fs fl f D S hparse hflag hf hread hstat
    rw [sswc_file args rest stream fs fl f D hparse hf hread]
    have h := sswcData_ok fl fs f D S [.readFile f] (byteCount_ok fs f S hf hstat)
    have hne : fl ≠ noFlags := by
      intro h0
      subst h0
      simp [noFlags] at hflag
    rw [if_neg hne] at h
    exact h
  · intro args1 args2 rest1 rest2 fl f stream fs h1 h2
    simp only [sswc, h1, h2, firstArg]
  · intro ts1 ts2 tail stream fs h1 h2 h
    have hp : Parse noFlags (ts1 ++ tail) = Parse noFlags (ts2 ++ tail) := by
      rw [Parse_plainFlagTokens_append ts1 tail noFlags h1,
        Parse_plainFlagTokens_append ts2 tail noFlags h2,
        setPlainTokens_congr noFlags ts1 ts2 h]
    simp only [sswc, hp]

theorem sswc_selected_counts_witness :
    (sswc [str "-w", str "-l", str "-w", str "f"] none
        (oneFile (str "f") (str "foo bar\nbaz\n") 12)).out = "2 3"
    ∧ sswc [str "-l", str "-c=true", str "f", str "g"] none
        (oneFile (str "f") (str "foo bar\nbaz\n") 12)
      = sswc [str "-c", str "-c=0", str "--l", str "-c=T", str "f"] none
        (oneFile (str "f") (str "foo bar\nbaz\n") 12)
    ∧ sswc [str "-w", str "--l", str "-w", str "f"] none
        (oneFile (str "f") (str "foo bar\nbaz\n") 12)
      = sswc [str "--l", str "-w", str "f"] none
        (oneFile (str "f") (str "foo bar\nbaz\n") 12) :=
  ⟨(sswc_selected_counts.1 [str "-w", str "-l", str "-w", str "f"] [] none
      (oneFile (str "f") (str "foo bar\nbaz\n") 12) ⟨false, true, true, false⟩ (str "f")
      (str "foo bar\nbaz\n") 12 rfl (by decide) (by decide) rfl rfl).2.trans (by decide),
   sswc_selected_counts.2.1 [str "-l", str "-c=true", str "f", str "g"]
      [str "-c", str "-c=0", str "--l", str "-c=T", str "f"] [str "g"] []
      ⟨true, true, false, false⟩ (str "f") none
      (oneFile (str "f") (str "foo bar\nbaz\n") 12) rfl rfl,
   sswc_selected_counts.2.2.1 [str "-w", str "--l", str "-w"] [str "--l", str "-w"]
      [str "f"] none (oneFile (str "f") (str "foo bar\nbaz\n") 12) (by decide) (by decide)
      (by intro t; simp only [List.mem_cons, List.mem_singleton, List.not_mem_nil]; tauto)⟩

/-- C2: when the arguments parse with no flag set and the file `f` is readable
(content `D`, reported size `S`), `sswc` returns no error and the line count,
the word count and `S`, in decimal, separated by single spaces; the default
triple is what a successful run on a file returns exactly when no flag is set
(the test of line 121 holds exactly then), and the selected counts otherwise;
a file containing `"a b c\n"`, of 6 bytes, gives `"1 3 6"`. -/
theorem sswc_default_triple :
    (∀ (args rest : List GoString) (stream : Option Reader) (fs : FileSystem)
        (f D : GoString) (S : Int),
        Parse noFlags args = .ok (noFlags, f :: rest) →
        f ≠ [] → fs.readFile f = .ok D → fs.stat f = .ok S →
        (sswc args stream fs).err = none
        ∧ (sswc args stream fs).out
            = toString (lineCount D) ++ " " ++ toString (wordCount D) ++ " " ++ toString S)
    ∧ (∀ (fl : Flags) (D : GoString) (S : Int),
        (appendCounts fl D (if fl.c then [Sprintf S] else [])).length = 0 ↔ fl = noFlags)
    ∧ (∀ (args rest : List GoString) (stream : Option Reader) (fs : FileSystem) (fl : Flags)
        (f D : GoString) (S : Int),
        Parse noFlags args = .ok (fl, f :: rest) →
        f ≠ [] → fs.readFile f = .ok D → fs.stat f = .ok S →
        (sswc args stream fs).err = none
        ∧ (sswc args stream fs).out = String.intercalate " "
            ((if fl = noFlags then defaultTriple S D else selectedCounts fl S D).map toString))
    ∧ sswc [str "f"] none (oneFile (str "f") (str "a b c\n") 6)
        = ⟨"1 3 6", none, [.readFile (str "f"), .stat (str "f")]⟩ := by
  refine ⟨?_, ?_, ?_, by decide⟩
  · intro args rest stream fs f D S hparse hf hread hstat
    rw [sswc_file args rest stream fs noFlags f D hparse hf hread]
    have h := sswcData_ok noFlags fs f D S [.readFile f] (byteCount_ok fs f S hf hstat)
    rw [if_pos rfl] at h
    refine ⟨h.1, ?_⟩
    rw [h.2]
    simp [defaultTriple, String.intercalate, String.intercalate.go, toString_natCast]
  · intro fl D S
    rcases fl with ⟨c, l, w, m⟩
    cases c <;> cases l <;> cases w <;> cases m <;> simp [appendCounts, noFlags]
  · intro args rest stream fs fl f D S hparse hf hread hstat
    rw [sswc_file args rest stream fs fl f D hparse hf hread]
    exact sswcData_ok fl fs f D S [.readFile f] (byteCount_ok fs f S hf hstat)

theorem sswc_default_triple_witness :
    (sswc [str "--", str "f"] none (oneFile (str "f") (str "a b c\n") 6)).out = "1 3 6" :=
  (sswc_default_triple.1 [str "--", str "f"] [] none (oneFile (str "f") (str "a b c\n") 6)
      (str "f") (str "a b c\n") 6 rfl (by decide) rfl rfl).2.trans (by decide)

/-- C6: for a file with reported size `S` and content `D`, no relation between
the two being assumed, the byte count `sswc` emits is `S`: it is the first field
when `-c` is set and the third field of the default triple; the count of `-m`
is the length of `D`; with `-c -m` alone the result is `S` then `len(D)`. -/
theorem sswc_byte_count_is_stat_size (args rest : List GoString) (stream : Option Reader)
    (fs : FileSystem) (fl : Flags) (f D : GoString) (S : Int)
    (hparse : Parse noFlags args = .ok (fl, f :: rest)) (hf : f ≠ [])
    (hread : fs.readFile f = .ok D) (hstat : fs.stat f = .ok S) :
    (fl.c = true → (sswc args stream fs).out = String.intercalate " "
        (toString S :: ((if fl.m then [toString D.length] else [])
          ++ (if fl.l then [toString (lineCount D)] else [])
          ++ (if fl.w then [toString (wordCount D)] else []))))
    ∧ (fl = noFlags → (sswc args stream fs).out = String.intercalate " "
        [toString (lineCount D), toString (wordCount D), toString S])
    ∧ (fl = ⟨true, false, false, true⟩ →
        sswc args stream fs
          = ⟨toString S ++ " " ++ toString D.length, none, [.readFile f, .stat f]⟩) := by
  rw [sswc_file args rest stream fs fl f D hparse hf hread]
  have hb := byteCount_ok fs f S hf hstat
  rcases fl with ⟨c, l, w, m⟩
  refine ⟨?_, ?_, ?_⟩
  · intro hc
    simp only at hc
    subst hc
    cases l <;> cases w <;> cases m <;>
      simp [sswcData, sswcCounts, appendCounts, hb, Sprintf, Join, charCount,
        toString_natCast]
  · intro h0
    rw [h0]
    simp [noFlags, sswcData, sswcCounts, appendCounts, hb, Sprintf, Join, toString_natCast]
  · intro h0
    rw [h0]
    simp [sswcData, sswcCounts, appendCounts, hb, Sprintf, Join, charCount,
      toString_natCast, String.intercalate, String.intercalate.go]

theorem sswc_byte_count_is_stat_size_witness :
    sswc [str "-c", str "-m", str "f"] none (oneFile (str "f") (str "abc") 5)
      = ⟨"5 3", none, [.readFile (str "f"), .stat (str "f")]⟩ :=
  ((sswc_byte_count_is_stat_size [str "-c", str "-m", str "f"] [] none
      (oneFile (str "f") (str "abc") 5) ⟨true, false, false, true⟩ (str "f") (str "abc") 5
      rfl (by decide) rfl rfl).2.2 rfl).trans (by decide)

/-- C7: when the arguments parse with no file name and the stream is readable,
`sswc` returns an error and the empty string if `-c` is set (whatever the other
flags) or if no flag is set; if `-c` is not set and one of `-m`, `-l`, `-w` is,
it returns no error and the selected counts of the content of the stream. -/
theorem sswc_stream_byte_count (args fileArgs : List GoString) (r : Reader)
    (fs : FileSystem) (fl : Flags) (hparse : Parse noFlags args = .ok (fl, fileArgs))
    (hname : firstArg fileArgs = []) (hr : r.failure = none) :
    ((fl.c = true ∨ fl = noFlags) →
        (sswc args (some r) fs).err = some (.path ⟨"stat", [], ENOENT⟩)
        ∧ (sswc args (some r) fs).out = "")
    ∧ (fl.c = false → (fl.m = true ∨ fl.l = true ∨ fl.w = true) →
        (sswc args (some r) fs).err = none
        ∧ (sswc args (some r) fs).out = String.intercalate " "
            ((selectedCounts fl 0 r.chunks.flatten).map toString)) := by
  rw [sswc_stream args fileArgs r fs fl hparse hname hr]
  have hb := byteCount_empty fs
  rcases fl with ⟨c, l, w, m⟩
  constructor
  · rintro (hc | h0)
    · simp only at hc
      subst hc
      simp [sswcData, hb]
    · rw [h0]
      simp [noFlags, sswcData, sswcCounts, appendCounts, hb]
  · intro hc hflag
    simp only at hc hflag
    subst hc
    cases l <;> cases w <;> cases m <;>
      simp [sswcData, sswcCounts, appendCounts, selectedCounts, Sprintf, Join] at hflag ⊢

theorem sswc_stream_byte_count_witness :
    ((sswc [str "-c", str "-l"] (some (stdin (str "x\n"))) noFile).err
        = some (.path ⟨"stat", [], ENOENT⟩)
      ∧ (sswc [str "-c", str "-l"] (some (stdin (str "x\n"))) noFile).out = "")
    ∧ (sswc [str "-l"] (some (stdin (str "x\n"))) noFile).out = "1" :=
  ⟨(sswc_stream_byte_count [str "-c", str "-l"] [] (stdin (str "x\n")) noFile
      ⟨true, true, false, false⟩ rfl rfl rfl).1 (Or.inl rfl),
   ((sswc_stream_byte_count [str "-l"] [] (stdin (str "x\n")) noFile
      ⟨false, true, false, false⟩ rfl rfl rfl).2 rfl (Or.inr (Or.inl rfl))).2.trans
     (by decide)⟩

theorem parseOne_positional (fl : Flags) (f : GoString) (rest : List GoString)
    (hpos : f.length < 2 ∨ f.head? ≠ some minus) :
    parseOne fl f rest = .stop (f :: rest) := by
  simp [parseOne, hpos]

theorem Parse_positional (fl : Flags) (f : GoString) (rest : List GoString)
    (hpos : f.length < 2 ∨ f.head? ≠ some minus) :
    Parse fl (f :: rest) = .ok (fl, f :: rest) := by
  rw [Parse, parseOne_positional fl f rest hpos]

/-- C8, as stated, fails: on a file of 12 bytes holding one word, `-w -c`
gives `"12 1"`, the byte count first, and not `"1 12"`. -/
theorem sswc_w_c_not_word_first :
    (oneFile (str "f") (str "hello_world\n") 12).readFile (str "f")
        = .ok (str "hello_world\n")
    ∧ (oneFile (str "f") (str "hello_world\n") 12).stat (str "f") = .ok 12
    ∧ (str "hello_world\n").length = 12
    ∧ wordCount (str "hello_world\n") = 1
    ∧ (sswc [str "-w", str "-c", str "f"] none
        (oneFile (str "f") (str "hello_world\n") 12)).out = "12 1"
    ∧ (sswc [str "-w", str "-c", str "f"] none
        (oneFile (str "f") (str "hello_world\n") 12)).out ≠ "1 12" := by
  refine ⟨rfl, rfl, by decide, by decide, by decide, by decide⟩

/-- C8, amended: for every file whose reported size is 12 and whose content
holds exactly one word, `sswc` called with `-w -c` and the file name returns
`"12 1"`: the byte count comes before the word count. -/
theorem sswc_w_c_byte_first (f D : GoString) (rest : List GoString)
    (stream : Option Reader) (fs : FileSystem) (hf : f ≠ [])
    (hpos : f.length < 2 ∨ f.head? ≠ some minus) (hread : fs.readFile f = .ok D)
    (hstat : fs.stat f = .ok 12) (hword : wordCount D = 1) :
    sswc (str "-w" :: str "-c" :: f :: rest) stream fs
      = ⟨"12 1", none, [.readFile f, .stat f]⟩ := by
  have hp : Parse noFlags (str "-w" :: str "-c" :: f :: rest)
      = .ok (⟨true, false, true, false⟩, f :: rest) := by
    have h := Parse_flagTokens_append [str "-w", str "-c"] (f :: rest) noFlags (by decide)
    simp only [List.cons_append, List.nil_append] at h
    rw [h, Parse_positional _ f rest hpos]
    rfl
  rw [sswc_file _ rest stream fs _ f D hp hf hread]
  simp [sswcData, sswcCounts, appendCounts, byteCount_ok fs f 12 hf hstat, hword, Sprintf,
    Join]
  decide

theorem sswc_w_c_byte_first_witness :
    sswc [str "-w", str "-c", str "f"] none (oneFile (str "f") (str "hello_world\n") 12)
      = ⟨"12 1", none, [.readFile (str "f"), .stat (str "f")]⟩ :=
  sswc_w_c_byte_first (str "f") (str "hello_world\n") [] none
    (oneFile (str "f") (str "hello_world\n") 12) (by decide) (by decide) rfl rfl (by decide)

theorem sswcData_error_out (fl : Flags) (fs : FileSystem) (f D : GoString)
    (events : List Event) (h : (sswcData fl fs f D events).err ≠ none) :
    (sswcData fl fs f D events).out = "" := by
  rcases fl with ⟨c, l, w, m⟩
  cases hb : byteCount fs f with
  | error e =>
    cases c <;> cases l <;> cases w <;> cases m <;>
      simp [sswcData, sswcCounts, appendCounts, hb] at h ⊢
  | ok v =>
    cases c <;> cases l <;> cases w <;> cases m <;>
      simp [sswcData, sswcCounts, appendCounts, hb] at h ⊢

/-- C9: for every argument list, stream and file system, when `sswc` returns
an error the string it returns is empty, also when counts were computed before
the failing step. -/
theorem sswc_error_no_output (args : List GoString) (stream : Option Reader)
    (fs : FileSystem) (h : (sswc args stream fs).err ≠ none) :
    (sswc args stream fs).out = "" := by
  cases hparse : Parse noFlags args with
  | error e => simp [sswc, hparse]
  | ok p =>
    obtain ⟨fl, fileArgs⟩ := p
    by_cases hf : firstArg fileArgs = []
    · cases stream with
      | none => simp [sswc, hparse, hf]
      | some r =>
        cases hr : readStream r with
        | error e => simp [sswc, hparse, hf, hr]
        | ok data =>
          have hs : sswc args (some r) fs = sswcData fl fs [] data [.readStream] := by
            simp [sswc, hparse, hf, hr]
          rw [hs] at h ⊢
          exact sswcData_error_out _ _ _ _ _ h
    · cases hr : osReadFile fs (firstArg fileArgs) with
      | error e => simp [sswc, hparse, hf, hr]
      | ok data =>
        have hs : sswc args stream fs
            = sswcData fl fs (firstArg fileArgs) data [.readFile (firstArg fileArgs)] := by
          simp [sswc, hparse, hf, hr]
        rw [hs] at h ⊢
        exact sswcData_error_out _ _ _ _ _ h

theorem sswc_error_no_output_witness :
    (sswc [] (some (stdin (str "one two\n"))) noFile).err ≠ none
    ∧ (sswc [] (some (stdin (str "one two\n"))) noFile).out = "" :=
  ⟨by decide, sswc_error_no_output [] (some (stdin (str "one two\n"))) noFile (by decide)⟩

theorem cutAt_eq_none (sep : Byte) (s : GoString) (h : sep ∉ s) : cutAt sep s = none := by
  induction s with
  | nil => rfl
  | cons b rest ih =>
    have hb : b ≠ sep := fun hb => h (by simp [hb])
    have hr : sep ∉ rest := fun hr => h (List.mem_cons_of_mem _ hr)
    simp [cutAt, hb, ih hr]

theorem parseOne_not_defined (fl : Flags) (name : GoString) (rest : List GoString)
    (hne : name ≠ []) (hminus : name.head? ≠ some minus) (heq : equals ∉ name)
    (hundef : lookupFlag name = none) (hhelp : name ≠ str "help") (hh : name ≠ str "h") :
    parseOne fl (minus :: name) rest = .fail (.flagNotDefined name) := by
  cases name with
  | nil => exact absurd rfl hne
  | cons b tl =>
    have hb : b ≠ minus := by simpa using hminus
    have hb2 : b ≠ equals := fun hb2 => heq (by simp [hb2])
    have htl : equals ∉ tl := fun htl => heq (List.mem_cons_of_mem _ htl)
    have hsv : splitValue (b :: tl) = (b :: tl, none) := by
      simp [splitValue, cutAt_eq_none equals tl htl]
    simp [parseOne, hb, hb2, hsv, hundef, hhelp, hh]

/-- C10: when flag parsing fails, `sswc` returns the parse error and the empty
string and reads neither a file nor the stream, whatever the file system and
the stream; an undefined flag met after any flags and before the first
positional argument makes parsing fail with `flag provided but not defined`;
with `-x` and a path that names no file the error is the parse error. -/
theorem sswc_parse_error_before_read :
    (∀ (args : List GoString) (e : Error), Parse noFlags args = .error e →
        ∀ (stream : Option Reader) (fs : FileSystem),
          sswc args stream fs = ⟨"", some e, []⟩)
    ∧ (∀ (pre rest : List GoString) (name : GoString),
        (∀ t ∈ pre, t ∈ flagTokens) → name ≠ [] → name.head? ≠ some minus →
        equals ∉ name → lookupFlag name = none → name ≠ str "help" → name ≠ str "h" →
        ∀ (stream : Option Reader) (fs : FileSystem),
          sswc (pre ++ (minus :: name) :: rest) stream fs
            = ⟨"", some (.flagNotDefined name), []⟩)
    ∧ sswc [str "-x", str "/nonexistent"] (some (stdin (str "text"))) noFile
        = ⟨"", some (.flagNotDefined (str "x")), []⟩ := by
  refine ⟨?_, ?_, by decide⟩
  · intro args e hparse stream fs
    simp [sswc, hparse]
  · intro pre rest name hpre hne hminus heq hundef hhelp hh stream fs
    have hp : Parse noFlags (pre ++ (minus :: name) :: rest)
        = .error (.flagNotDefined name) := by
      rw [Parse_flagTokens_append pre _ noFlags hpre, Parse,
        parseOne_not_defined _ name rest hne hminus heq hundef hhelp hh]
    simp [sswc, hp]

theorem sswc_parse_error_before_read_witness :
    sswc [str "-l", str "-x", str "f"] none (oneFile (str "f") (str "a\n") 2)
        = ⟨"", some (.flagNotDefined (str "x")), []⟩
    ∧ sswc [str "-l", str "-x", str "f"] none (oneFile (str "f") (str "a\n") 2)
        = sswc [str "-l", str "-x", str "f"] (some (stdin (str "b"))) noFile :=
  ⟨sswc_parse_error_before_read.2.1 [str "-l"] [str "f"] (str "x") (by decide) (by decide)
      (by decide) (by decide) (by decide) (by decide) (by decide) none
      (oneFile (str "f") (str "a\n") 2),
   (sswc_parse_error_before_read.1 [str "-l", str "-x", str "f"]
      (.flagNotDefined (str "x")) rfl none (oneFile (str "f") (str "a\n") 2)).trans
     (sswc_parse_error_before_read.1 [str "-l", str "-x", str "f"]
      (.flagNotDefined (str "x")) rfl (some (stdin (str "b"))) noFile).symm⟩

/-! ## Theorems: maximal runs and wordCount -/

theorem mem_maximalRuns (ws : List Bool) (i j : Nat) :
    (i, j) ∈ maximalRuns ws ↔ IsMaximalRun ws i j := by
  simp only [maximalRuns, Finset.mem_filter, Finset.mem_product, Finset.mem_range]
  constructor
  · intro h; exact h.2
  · intro h
    have h1 := h.1
    have h2 := h.2.1
    exact ⟨⟨by omega, by omega⟩, h⟩

theorem getElem?_snoc_lt (ws : List Bool) (a : Bool) (k : Nat) (h : k < ws.length) :
    (ws ++ [a])[k]? = ws[k]? :=
  List.getElem?_append_left h

theorem getElem?_snoc_length (ws : List Bool) (a : Bool) :
    (ws ++ [a])[ws.length]? = some a :=
  List.getElem?_concat_length ws a

theorem isMaximalRun_snoc_space (ws : List Bool) (i j : Nat) :
    IsMaximalRun (ws ++ [true]) i j ↔ IsMaximalRun ws i j := by
  unfold IsMaximalRun
  rw [List.length_append, List.length_singleton]
  constructor
  · rintro ⟨hij, hj, hall, hl, hr⟩
    have hjn : j ≤ ws.length := by
      by_contra hc
      have hj1 : j = ws.length + 1 := by omega
      have h := hall ws.length (by omega) (by omega)
      rw [getElem?_snoc_length] at h
      simp at h
    refine ⟨hij, hjn, ?_, ?_, ?_⟩
    · intro k hk1 hk2
      rw [← getElem?_snoc_lt ws true k (by omega)]
      exact hall k hk1 hk2
    · rcases hl with hl | hl
      · exact Or.inl hl
      · right
        rw [← getElem?_snoc_lt ws true (i - 1) (by omega)]
        exact hl
    · by_cases hjeq : j = ws.length
      · exact Or.inl hjeq
      · right
        rcases hr with hr | hr
        · omega
        · rw [← getElem?_snoc_lt ws true j (by omega)]
          exact hr
  · rintro ⟨hij, hj, hall, hl, hr⟩
    refine ⟨hij, by omega, ?_, ?_, ?_⟩
    · intro k hk1 hk2
      rw [getElem?_snoc_lt ws true k (by omega)]
      exact hall k hk1 hk2
    · rcases hl with hl | hl
      · exact Or.inl hl
      · right
        rw [getElem?_snoc_lt ws true (i - 1) (by omega)]
        exact hl
    · right
      rcases hr with hr | hr
      · rw [hr, getElem?_snoc_length]
      · have hlt : j < ws.length := by
          by_contra hc
          rw [List.getElem?_eq_none (by omega)] at hr
          simp at hr
        rw [getElem?_snoc_lt ws true j hlt]
        exact hr

theorem isMaximalRun_snoc_closed (ws : List Bool) (i j : Nat)
    (hc : ws[ws.length - 1]? ≠ some false) :
    IsMaximalRun (ws ++ [false]) i j
      ↔ IsMaximalRun ws i j ∨ (i = ws.length ∧ j = ws.length + 1) := by
  unfold IsMaximalRun
  rw [List.length_append, List.length_singleton]
  constructor
  · rintro ⟨hij, hj, hall, hl, hr⟩
    by_cases hjn : j = ws.length + 1
    · right
      refine ⟨?_, hjn⟩
      by_contra hi
      have h := hall (ws.length - 1) (by omega) (by omega)
      rw [getElem?_snoc_lt ws false _ (by omega)] at h
      exact hc h
    · left
      have hjlt : j < ws.length := by
        by_contra hge
        have hje : j = ws.length := by omega
        rcases hr with hr | hr
        · omega
        · rw [hje, getElem?_snoc_length] at hr
          simp at hr
      refine ⟨hij, by omega, ?_, ?_, ?_⟩
      · intro k hk1 hk2
        rw [← getElem?_snoc_lt ws false k (by omega)]
        exact hall k hk1 hk2
      · rcases hl with hl | hl
        · exact Or.inl hl
        · right
          rw [← getElem?_snoc_lt ws false (i - 1) (by omega)]
          exact hl
      · right
        rcases hr with hr | hr
        · omega
        · rw [← getElem?_snoc_lt ws false j hjlt]
          exact hr
  · rintro (⟨hij, hj, hall, hl, hr⟩ | ⟨hi, hj⟩)
    · have hjlt : j < ws.length := by
        by_contra hge
        have hje : j = ws.length := by omega
        exact hc (hall (ws.length - 1) (by omega) (by omega))
      refine ⟨hij, by omega, ?_, ?_, ?_⟩
      · intro k hk1 hk2
        rw [getElem?_snoc_lt ws false k (by omega)]
        exact hall k hk1 hk2
      · rcases hl with hl | hl
        · exact Or.inl hl
        · right
          rw [getElem?_snoc_lt ws false (i - 1) (by omega)]
          exact hl
      · right
        rcases hr with hr | hr
        · omega
        · rw [getElem?_snoc_lt ws false j hjlt]
          exact hr
    · subst hi hj
      refine ⟨by omega, by omega, ?_, ?_, Or.inl rfl⟩
      · intro k hk1 hk2
        have hk : k = ws.length := by omega
        rw [hk, getElem?_snoc_length]
      · by_cases h0 : ws.length = 0
        · exact Or.inl h0
        · right
          rw [getElem?_snoc_lt ws false _ (by omega)]
          have hlt : ws.length - 1 < ws.length := by omega
          rw [List.getElem?_eq_getElem hlt] at hc ⊢
          cases hb : ws[ws.length - 1] with
          | true => rfl
          | false => rw [hb] at hc; exact absurd rfl hc

theorem isMaximalRun_snoc_open (ws : List Bool) (i j : Nat)
    (ho : ws[ws.length - 1]? = some false) :
    IsMaximalRun (ws ++ [false]) i j
      ↔ (IsMaximalRun ws i j ∧ j < ws.length)
        ∨ (j = ws.length + 1 ∧ IsMaximalRun ws i ws.length) := by
  have hpos : 0 < ws.length := by
    by_contra h0
    rw [List.getElem?_eq_none (by omega)] at ho
    simp at ho
  unfold IsMaximalRun
  rw [List.length_append, List.length_singleton]
  constructor
  · rintro ⟨hij, hj, hall, hl, hr⟩
    have hl2 : i = 0 ∨ ws[i - 1]? = some true := by
      rcases hl with hl | hl
      · exact Or.inl hl
      · by_cases hi : i - 1 < ws.length
        · right
          rw [← getElem?_snoc_lt ws false (i - 1) hi]
          exact hl
        · have hi2 : i - 1 = ws.length := by omega
          rw [hi2, getElem?_snoc_length] at hl
          simp at hl
    by_cases hjn : j = ws.length + 1
    · right
      have hin : i < ws.length := by
        by_contra hge
        have hie : i = ws.length := by omega
        rcases hl2 with hl2 | hl2
        · omega
        · rw [hie, ho] at hl2
          simp at hl2
      refine ⟨hjn, hin, le_refl _, ?_, hl2, Or.inl rfl⟩
      intro k hk1 hk2
      rw [← getElem?_snoc_lt ws false k hk2]
      exact hall k hk1 (by omega)
    · left
      have hjlt : j < ws.length := by
        by_contra hge
        have hje : j = ws.length := by omega
        rcases hr with hr | hr
        · omega
        · rw [hje, getElem?_snoc_length] at hr
          simp at hr
      refine ⟨⟨hij, by omega, ?_, hl2, ?_⟩, hjlt⟩
      · intro k hk1 hk2
        rw [← getElem?_snoc_lt ws false k (by omega)]
        exact hall k hk1 hk2
      · right
        rcases hr with hr | hr
        · omega
        · rw [← getElem?_snoc_lt ws false j hjlt]
          exact hr
  · rintro (⟨⟨hij, hj, hall, hl, hr⟩, hjlt⟩ | ⟨hjn, hin, _, hall, hl, _⟩)
    · refine ⟨hij, by omega, ?_, ?_, ?_⟩
      · intro k hk1 hk2
        rw [getElem?_snoc_lt ws false k (by omega)]
        exact hall k hk1 hk2
      · rcases hl with hl | hl
        · exact Or.inl hl
        · right
          rw [getElem?_snoc_lt ws false (i - 1) (by omega)]
          exact hl
      · right
        rcases hr with hr | hr
        · omega
        · rw [getElem?_snoc_lt ws false j hjlt]
          exact hr
    · subst hjn
      refine ⟨by omega, le_refl _, ?_, ?_, Or.inl rfl⟩
      · intro k hk1 hk2
        by_cases hk : k < ws.length
        · rw [getElem?_snoc_lt ws false k hk]
          exact hall k hk1 hk
        · have hke : k = ws.length := by omega
          rw [hke, getElem?_snoc_length]
      · rcases hl with hl | hl
        · exact Or.inl hl
        · right
          rw [getElem?_snoc_lt ws false (i - 1) (by omega)]
          exact hl

/-- The recurrence of the number of maximal runs when one character is added
at the end: a run is added exactly when the character is not white space and
the text before it is empty or ends with white space. -/
theorem card_maximalRuns_snoc (ws : List Bool) (a : Bool) :
    (maximalRuns (ws ++ [a])).card
      = (maximalRuns ws).card
        + (if a = false ∧ ws[ws.length - 1]? ≠ some false then 1 else 0) := by
  cases a with
  | true =>
    have h : maximalRuns (ws ++ [true]) = maximalRuns ws := by
      ext ⟨i, j⟩
      rw [mem_maximalRuns, mem_maximalRuns, isMaximalRun_snoc_space]
    simp [h]
  | false =>
    by_cases hc : ws[ws.length - 1]? = some false
    · have hif : ¬ (false = false ∧ ws[ws.length - 1]? ≠ some false) := fun h => h.2 hc
      rw [if_neg hif, Nat.add_zero]
      symm
      refine Finset.card_bij
        (fun p _ => (p.1, if p.2 = ws.length then ws.length + 1 else p.2)) ?_ ?_ ?_
      · rintro ⟨i, j⟩ hp
        rw [mem_maximalRuns] at hp
        rw [mem_maximalRuns, isMaximalRun_snoc_open ws _ _ hc]
        by_cases hj : j = ws.length
        · right
          subst hj
          simp only [if_true]
          exact ⟨trivial, hp⟩
        · left
          simp only [hj, if_false]
          have := hp.2.1
          exact ⟨hp, by omega⟩
      · rintro ⟨i1, j1⟩ h1 ⟨i2, j2⟩ h2 heq
        rw [mem_maximalRuns] at h1 h2
        have hj1 := h1.2.1
        have hj2 := h2.2.1
        simp only [Prod.mk.injEq] at heq ⊢
        refine ⟨heq.1, ?_⟩
        have h3 := heq.2
        by_cases e1 : j1 = ws.length <;> by_cases e2 : j2 = ws.length <;>
          simp only [e1, e2, if_true, if_false] at h3 <;> omega
      · rintro ⟨i, j⟩ hq
        rw [mem_maximalRuns, isMaximalRun_snoc_open ws _ _ hc] at hq
        rcases hq with ⟨hq, hjlt⟩ | ⟨hj, hq⟩
        · refine ⟨(i, j), (mem_maximalRuns ws i j).2 hq, ?_⟩
          have hne : j ≠ ws.length := by omega
          simp [hne]
        · refine ⟨(i, ws.length), (mem_maximalRuns ws i _).2 hq, ?_⟩
          simp [hj]
    · have hif : false = false ∧ ws[ws.length - 1]? ≠ some false := ⟨rfl, hc⟩
      rw [if_pos hif]
      have h : maximalRuns (ws ++ [false])
          = insert (ws.length, ws.length + 1) (maximalRuns ws) := by
        ext ⟨i, j⟩
        rw [Finset.mem_insert, mem_maximalRuns, mem_maximalRuns,
          isMaximalRun_snoc_closed ws _ _ hc]
        simp only [Prod.mk.injEq]
        tauto
      have hnot : (ws.length, ws.length + 1) ∉ maximalRuns ws := by
        rw [mem_maximalRuns]
        intro hm
        have := hm.2.1
        omega
      rw [h, Finset.card_insert_of_not_mem hnot]

theorem card_maximalRuns_nil : (maximalRuns []).card = 0 := by decide

theorem card_maximalRuns_eq_zero_iff (ws : List Bool) :
    (maximalRuns ws).card = 0 ↔ ∀ b ∈ ws, b = true := by
  induction ws using List.reverseRecOn with
  | nil => simp [card_maximalRuns_nil]
  | append_singleton ws a ih =>
    rw [card_maximalRuns_snoc]
    constructor
    · intro h
      have h1 : (maximalRuns ws).card = 0 := by omega
      have hall := ih.1 h1
      have hlast : ws[ws.length - 1]? ≠ some false := by
        intro hl
        have hm := List.getElem?_mem hl
        exact absurd (hall false hm) (by simp)
      have ha : a = true := by
        cases a with
        | true => rfl
        | false =>
          rw [if_pos ⟨rfl, hlast⟩] at h
          omega
      intro b hb
      rcases List.mem_append.1 hb with hb | hb
      · exact hall b hb
      · rw [List.mem_singleton.1 hb, ha]
    · intro h
      have hall : ∀ b ∈ ws, b = true := fun b hb => h b (List.mem_append_left _ hb)
      have ha : a = true := h a (by simp)
      rw [ih.2 hall, ha]
      simp

theorem fieldsFuncStep_spec (f : Nat → Bool) (start : Int) (spans : List (Nat × Nat))
    (q : Nat × Nat) :
    (0 ≤ (fieldsFuncStep f (start, spans) q).1 ↔ f q.2 = false)
    ∧ (fieldsFuncStep f (start, spans) q).2.length
        + (if 0 ≤ (fieldsFuncStep f (start, spans) q).1 then 1 else 0)
      = spans.length + (if 0 ≤ start then 1 else 0)
        + (if f q.2 = false ∧ ¬ 0 ≤ start then 1 else 0) := by
  unfold fieldsFuncStep
  cases hq : f q.2 with
  | true =>
    by_cases hs : 0 ≤ start
    · have hs2 : start ≥ 0 := hs
      have hneg : ¬ (0 ≤ -start - 1) := by omega
      simp [hs, hs2, hneg]
    · have hs2 : ¬ start ≥ 0 := hs
      simp [hs, hs2]
  | false =>
    have hq0 : (0 : Int) ≤ (q.1 : Int) := Int.natCast_nonneg _
    by_cases hs : 0 ≤ start
    · have hs3 : ¬ (start < 0) := by omega
      simp [hs, hs3]
    · have hs3 : start < 0 := by omega
      simp [hs, hs3, hq0]

/-- The loop of `strings.FieldsFunc`: after the pairs `ps`, a field is open
exactly when the last rune is not white space, and the spans recorded, with the
open field, are as many as the maximal runs. -/
theorem fieldsFunc_loop (f : Nat → Bool) (ps : List (Nat × Nat)) :
    (0 ≤ (ps.foldl (fieldsFuncStep f) ((-1 : Int), [])).1
        ↔ (ps.map (fun p => f p.2))[ps.length - 1]? = some false)
    ∧ (ps.foldl (fieldsFuncStep f) ((-1 : Int), [])).2.length
        + (if 0 ≤ (ps.foldl (fieldsFuncStep f) ((-1 : Int), [])).1 then 1 else 0)
      = (maximalRuns (ps.map (fun p => f p.2))).card := by
  induction ps using List.reverseRecOn with
  | nil => simp [card_maximalRuns_nil]
  | append_singleton ps q ih =>
    obtain ⟨ih1, ih2⟩ := ih
    have hlen : (ps ++ [q]).length - 1 = (ps.map (fun p => f p.2)).length := by simp
    have hlen2 : (ps.map (fun p => f p.2)).length - 1 = ps.length - 1 := by simp
    rw [List.foldl_append, List.map_append, List.map_singleton, card_maximalRuns_snoc,
      hlen, getElem?_snoc_length, hlen2, ← ih2]
    generalize ps.foldl (fieldsFuncStep f) ((-1 : Int), []) = st at ih1 ⊢
    obtain ⟨start, spans⟩ := st
    simp only [List.foldl_cons, List.foldl_nil]
    obtain ⟨h1, h2⟩ := fieldsFuncStep_spec f start spans q
    simp only at ih1
    refine ⟨?_, ?_⟩
    · rw [h1]
      constructor
      · intro h; rw [h]
      · intro h; exact Option.some.inj h
    · rw [h2]
      have hiff : (f q.2 = false ∧ ¬ 0 ≤ start)
          ↔ (f q.2 = false ∧ (ps.map (fun p => f p.2))[ps.length - 1]? ≠ some false) := by
        rw [ih1]
      simp only [hiff]

theorem length_fieldSpans (f : Nat → Bool) (s : GoString) :
    (fieldSpans f s).length = (maximalRuns ((runes s).map f)).card := by
  have h := (fieldsFunc_loop f (rangeString s)).2
  have hm : (runes s).map f = (rangeString s).map (fun p => f p.2) := by
    simp [runes, List.map_map, Function.comp_def]
  rw [hm, ← h]
  unfold fieldSpans
  by_cases hs : 0 ≤ ((rangeString s).foldl (fieldsFuncStep f) ((-1 : Int), [])).1
  · have hs2 : ((rangeString s).foldl (fieldsFuncStep f) ((-1 : Int), [])).1 ≥ 0 := hs
    simp [hs, hs2]
  · have hs2 : ¬ ((rangeString s).foldl (fieldsFuncStep f) ((-1 : Int), [])).1 ≥ 0 := hs
    simp [hs, hs2]

theorem lt_of_lor_lt (a b n : Nat) (h : a ||| b < 2 ^ n) : a < 2 ^ n ∧ b < 2 ^ n := by
  have hbit : ∀ i, i ≥ n → (a ||| b).testBit i = false := by
    intro i hi
    apply Nat.testBit_lt_two_pow
    exact Nat.lt_of_lt_of_le h (Nat.pow_le_pow_right (by decide) hi)
  constructor
  · apply Nat.lt_pow_two_of_testBit
    intro i hi
    have := hbit i hi
    rw [Nat.testBit_or, Bool.or_eq_false_iff] at this
    exact this.1
  · apply Nat.lt_pow_two_of_testBit
    intro i hi
    have := hbit i hi
    rw [Nat.testBit_or, Bool.or_eq_false_iff] at this
    exact this.2

theorem asciiSpace_cases (b : Byte) : asciiSpace b = 0 ∨ asciiSpace b = 1 := by
  unfold asciiSpace
  split
  · exact Or.inr rfl
  · exact Or.inl rfl

/-- The counting loop of `strings.Fields`: after the bytes `s`, `wasSpace` is
0 exactly when the last byte is not in the table, `n` is the number of maximal
runs of bytes not in the table, and when `setBits` is below `utf8.RuneSelf`
every byte is ASCII. -/
theorem fieldsCount_loop (s : GoString) :
    (s.foldl fieldsCountStep (0, 1, 0)).2.1
        = (if (s.map (fun b => decide (asciiSpace b ≠ 0)))[s.length - 1]? = some false
            then 0 else 1)
    ∧ (s.foldl fieldsCountStep (0, 1, 0)).1
        = (maximalRuns (s.map (fun b => decide (asciiSpace b ≠ 0)))).card
    ∧ ((s.foldl fieldsCountStep (0, 1, 0)).2.2 < 2 ^ 7 → ∀ b ∈ s, b.val < 2 ^ 7) := by
  induction s using List.reverseRecOn with
  | nil => simp [card_maximalRuns_nil]
  | append_singleton s r ih =>
    obtain ⟨ih1, ih2, ih3⟩ := ih
    have hlen : (s ++ [r]).length - 1
        = (s.map (fun b => decide (asciiSpace b ≠ 0))).length := by simp
    have hlen2 : (s.map (fun b => decide (asciiSpace b ≠ 0))).length - 1 = s.length - 1 := by
      simp
    rw [List.foldl_append, List.map_append, List.map_singleton, card_maximalRuns_snoc,
      hlen, getElem?_snoc_length, hlen2, ← ih2]
    generalize s.foldl fieldsCountStep (0, 1, 0) = st at ih1 ih3 ⊢
    obtain ⟨n, wasSpace, setBits⟩ := st
    generalize (s.map (fun b => decide (asciiSpace b ≠ 0)))[s.length - 1]? = last at ih1 ⊢
    simp only [List.foldl_cons, List.foldl_nil, fieldsCountStep] at ih1 ih3 ⊢
    refine ⟨?_, ?_, ?_⟩
    · rcases asciiSpace_cases r with h | h <;> simp [h]
    · rcases asciiSpace_cases r with h | h
      · by_cases hl : last = some false
        · rw [if_pos hl] at ih1
          simp [h, hl, ih1]
        · rw [if_neg hl] at ih1
          simp [h, hl, ih1]
      · simp [h]
    · intro hlt b hb
      have h2 := lt_of_lor_lt setBits r.val 7 hlt
      rcases List.mem_append.1 hb with hb | hb
      · exact ih3 h2.1 b hb
      · rw [List.mem_singleton.1 hb]
        exact h2.2

theorem DecodeRune_ascii (b : Byte) (rest : GoString) (h : b.val < 2 ^ 7) :
    DecodeRune (b :: rest) = (b.val, 1) := by
  have h2 : b.val < 128 := h
  simp [DecodeRune, h2]

theorem rangeFrom_ascii (s : GoString) (i : Nat) (h : ∀ b ∈ s, b.val < 2 ^ 7) :
    (rangeFrom i 0 s).map Prod.snd = s.map (fun b => b.val) := by
  induction s generalizing i with
  | nil => simp [rangeFrom]
  | cons b rest ih =>
    have hb := h b (List.mem_cons_self _ _)
    have hrest : ∀ c ∈ rest, c.val < 2 ^ 7 := fun c hc => h c (List.mem_cons_of_mem _ hc)
    simp only [rangeFrom, DecodeRune_ascii b rest hb, List.map_cons, Nat.sub_self]
    rw [ih (i + 1) hrest]

set_option maxRecDepth 100000 in
theorem IsSpace_ascii :
    ∀ b : Byte, b.val < 2 ^ 7 → IsSpace b.val = decide (asciiSpace b ≠ 0) := by
  decide

theorem whitespace_ascii (s : GoString) (h : ∀ b ∈ s, b.val < 2 ^ 7) :
    whitespace s = s.map (fun b => decide (asciiSpace b ≠ 0)) := by
  unfold whitespace runes rangeString
  rw [rangeFrom_ascii s 0 h, List.map_map]
  apply List.map_congr_left
  intro b hb
  exact IsSpace_ascii b (h b hb)

theorem length_storeFields (fields : List GoString) (a : List GoString) (na : Nat) :
    (storeFields a na fields).length = a.length := by
  induction fields generalizing a na with
  | nil => rfl
  | cons f fs ih => rw [storeFields, ih, List.length_set]

theorem wordCount_eq_card (T : GoString) :
    wordCount T = (maximalRuns (whitespace T)).card := by
  unfold wordCount Fields
  by_cases hbits : (fieldsCount T).2.2 ≥ 0x80
  · simp only [hbits, if_true]
    unfold FieldsFunc
    rw [List.length_map, length_fieldSpans]
    rfl
  · simp only [hbits, if_false]
    rw [length_storeFields, List.length_replicate]
    obtain ⟨_, h2, h3⟩ := fieldsCount_loop T
    have hlt : (fieldsCount T).2.2 < 2 ^ 7 := by
      have : ¬ (fieldsCount T).2.2 ≥ 128 := hbits
      omega
    rw [whitespace_ascii T (h3 hlt)]
    exact h2

/-- C5: for every text, `wordCount` is the number of maximal runs of
consecutive characters that `unicode.IsSpace` does not class as white space,
the characters being the runes Go decodes; it is 0 exactly when the text is
empty or holds only white space; the three listed texts have 2, 0 and 1 words,
and leading, trailing and repeated white space, ASCII or not, adds none. -/
theorem wordCount_eq_maximal_runs :
    (∀ T : GoString, wordCount T = (maximalRuns (whitespace T)).card)
    ∧ (∀ T : GoString, wordCount T = 0 ↔ (T = [] ∨ ∀ r ∈ runes T, IsSpace r = true))
    ∧ wordCount (str "  hello   world  ") = 2
    ∧ wordCount (str "") = 0
    ∧ wordCount (str "one") = 1
    ∧ wordCount (str "\t  one  \n two 　") = 2 := by
  refine ⟨wordCount_eq_card, ?_, by decide, by decide, by decide, by decide⟩
  intro T
  rw [wordCount_eq_card, card_maximalRuns_eq_zero_iff]
  unfold whitespace
  constructor
  · intro h
    right
    intro r hr
    exact h (IsSpace r) (List.mem_map_of_mem IsSpace hr)
  · rintro (h | h)
    · subst h
      intro b hb
      simp [runes, rangeString, rangeFrom] at hb
    · intro b hb
      obtain ⟨r, hr, hrb⟩ := List.mem_map.1 hb
      rw [← hrb]
      exact h r hr

/-! ## Theorems: the source of the content -/

theorem sswcData_events (fl : Flags) (fs : FileSystem) (f D : GoString)
    (events : List Event) :
    (sswcData fl fs f D events).events = events
    ∨ (sswcData fl fs f D events).events = events ++ [.stat f] := by
  rcases fl with ⟨c, l, w, m⟩
  cases hb : byteCount fs f with
  | error e =>
    cases c <;> cases l <;> cases w <;> cases m <;>
      simp [sswcData, sswcCounts, appendCounts, hb]
  | ok v =>
    cases c <;> cases l <;> cases w <;> cases m <;>
      simp [sswcData, sswcCounts, appendCounts, hb]

/-- C11: when the arguments parse with a non-empty file name `f`, the result
of `sswc` is the same for every stream, absent, readable or failing, and the
stream is never read; the counts are those of the content of `f`; when `f`
cannot be read the result is the read error and the empty string, whatever the
stream. -/
theorem sswc_file_ignores_stream (args rest : List GoString) (fs : FileSystem)
    (fl : Flags) (f : GoString) (hparse : Parse noFlags args = .ok (fl, f :: rest))
    (hf : f ≠ []) :
    (∀ s1 s2 : Option Reader, sswc args s1 fs = sswc args s2 fs)
    ∧ (∀ s : Option Reader, Event.readStream ∉ (sswc args s fs).events)
    ∧ (∀ (D : GoString) (s : Option Reader), fs.readFile f = .ok D →
        sswc args s fs = sswcData fl fs f D [.readFile f])
    ∧ (∀ (e : PathError) (s : Option Reader), fs.readFile f = .error e →
        sswc args s fs = ⟨"", some (.path e), [.readFile f]⟩) := by
  have hfile : ∀ (D : GoString) (s : Option Reader), fs.readFile f = .ok D →
      sswc args s fs = sswcData fl fs f D [.readFile f] :=
    fun D s hr => sswc_file args rest s fs fl f D hparse hf hr
  have herr : ∀ (e : PathError) (s : Option Reader), fs.readFile f = .error e →
      sswc args s fs = ⟨"", some (.path e), [.readFile f]⟩ := by
    intro e s hr
    simp [sswc, hparse, firstArg, hf, osReadFile, hr]
  refine ⟨?_, ?_, hfile, herr⟩
  · intro s1 s2
    cases hr : fs.readFile f with
    | error e => rw [herr e s1 hr, herr e s2 hr]
    | ok D => rw [hfile D s1 hr, hfile D s2 hr]
  · intro s
    cases hr : fs.readFile f with
    | error e =>
      rw [herr e s hr]
      simp
    | ok D =>
      rw [hfile D s hr]
      rcases sswcData_events fl fs f D [.readFile f] with h | h <;> rw [h] <;> simp

theorem sswc_file_ignores_stream_witness :
    sswc [str "-l", str "f"] (some (stdin (str "x\ny\nz\n"))) (oneFile (str "f") (str "a\n") 2)
      = sswc [str "-l", str "f"] none (oneFile (str "f") (str "a\n") 2)
    ∧ sswc [str "-l", str "f"] (some (stdin (str "x\ny\nz\n"))) noFile
      = ⟨"", some (.path ⟨"open", str "f", ENOENT⟩), [.readFile (str "f")]⟩ :=
  ⟨(sswc_file_ignores_stream [str "-l", str "f"] [] (oneFile (str "f") (str "a\n") 2)
      ⟨false, true, false, false⟩ (str "f") rfl (by decide)).1 _ _,
   (sswc_file_ignores_stream [str "-l", str "f"] [] noFile
      ⟨false, true, false, false⟩ (str "f") rfl (by decide)).2.2.2 _ _ rfl⟩

/-- C12: when the arguments parse with no file name (no positional argument,
or an empty first one) and the stream is nil, `sswc` returns the error
`no input provided` and the empty string, whatever the flags, and makes no
access to the environment: no byte count is attempted. -/
theorem sswc_no_input (args fileArgs : List GoString) (fs : FileSystem) (fl : Flags)
    (hparse : Parse noFlags args = .ok (fl, fileArgs)) (hname : firstArg fileArgs = []) :
    sswc args none fs = ⟨"", some .noInput, []⟩ := by
  simp [sswc, hparse, hname]

theorem sswc_no_input_witness :
    sswc [str "-c", str "-w"] none (oneFile (str "f") (str "a\n") 2)
        = ⟨"", some .noInput, []⟩
    ∧ sswc [str "-m", str ""] none (oneFile (str "f") (str "a\n") 2)
        = ⟨"", some .noInput, []⟩ :=
  ⟨sswc_no_input [str "-c", str "-w"] [] (oneFile (str "f") (str "a\n") 2)
      ⟨true, false, true, false⟩ rfl rfl,
   sswc_no_input [str "-m", str ""] [str ""] (oneFile (str "f") (str "a\n") 2)
      ⟨false, false, false, true⟩ rfl rfl⟩

/-! ## Theorems: charCount and the counts under concatenation -/

theorem length_runes_ascii (C : GoString) (h : ∀ b ∈ C, b.val < 2 ^ 7) :
    (runes C).length = C.length := by
  unfold runes rangeString
  rw [rangeFrom_ascii C 0 h, List.length_map]

/-- C14: `charCount` is the length of the byte sequence, with no decoding; for
an ASCII content it is the number of characters; when the size `stat` reports
for a file is the length of what is read, `-m` and `-c` return the same count;
a content with a two-byte character has more bytes than characters. -/
theorem charCount_eq_byte_length :
    (∀ C : GoString, charCount C = C.length)
    ∧ (∀ C : GoString, (∀ b ∈ C, b.val < 2 ^ 7) → charCount C = (runes C).length)
    ∧ (∀ (argsC argsM restC restM : List GoString) (stream : Option Reader)
        (fs : FileSystem) (f D : GoString),
        Parse noFlags argsC = .ok (⟨true, false, false, false⟩, f :: restC) →
        Parse noFlags argsM = .ok (⟨false, false, false, true⟩, f :: restM) →
        f ≠ [] → fs.readFile f = .ok D → fs.stat f = .ok (D.length : Int) →
        (sswc argsM stream fs).out = (sswc argsC stream fs).out
        ∧ (sswc argsM stream fs).out = toString D.length)
    ∧ charCount (str "héllo") = 6
    ∧ (runes (str "héllo")).length = 5 := by
  refine ⟨fun C => rfl, ?_, ?_, by decide, by decide⟩
  · intro C h
    rw [length_runes_ascii C h]
    rfl
  · intro argsC argsM restC restM stream fs f D hc hm hf hread hstat
    rw [sswc_file argsC restC stream fs _ f D hc hf hread,
      sswc_file argsM restM stream fs _ f D hm hf hread]
    simp [sswcData, sswcCounts, appendCounts, byteCount_ok fs f _ hf hstat, Sprintf, Join,
      charCount, toString_natCast, String.intercalate, String.intercalate.go]

set_option maxRecDepth 10000 in
theorem charCount_eq_byte_length_witness :
    charCount (str "one two") = (runes (str "one two")).length
    ∧ (sswc [str "-m", str "f"] none (oneFile (str "f") (str "héllo") 6)).out
        = (sswc [str "-c", str "f"] none (oneFile (str "f") (str "héllo") 6)).out :=
  ⟨charCount_eq_byte_length.2.1 (str "one two") (by decide),
   (charCount_eq_byte_length.2.2.1 [str "-c", str "f"] [str "-m", str "f"] [] [] none
      (oneFile (str "f") (str "héllo") 6) (str "f") (str "héllo") rfl rfl (by decide)
      rfl rfl).1⟩

theorem lineCount_count (C : GoString) :
    lineCount C
      = C.count newline + (if C ≠ [] ∧ C.getLast? ≠ some newline then 1 else 0) := by
  rw [lineCount_eq_segments, length_Split]
  by_cases h : (Split newline C).getLast? = some []
  · have h2 := (getLast?_Split_eq_nil_iff newline C).1 h
    have h3 : ¬ (C ≠ [] ∧ C.getLast? ≠ some newline) := by
      rintro ⟨h4, h5⟩
      rcases h2 with h2 | h2
      · exact h4 h2
      · exact h5 h2
    simp [h, h3]
  · have h3 : C ≠ [] ∧ C.getLast? ≠ some newline := by
      constructor
      · intro h4; exact h ((getLast?_Split_eq_nil_iff newline C).2 (Or.inl h4))
      · intro h4; exact h ((getLast?_Split_eq_nil_iff newline C).2 (Or.inr h4))
    simp [h, h3]

/-- The line count of a concatenation: one line is lost exactly when the
second part is not empty and the first part ends inside a line. -/
theorem lineCount_append_add (A B : GoString) :
    lineCount (A ++ B)
        + (if B ≠ [] ∧ A ≠ [] ∧ A.getLast? ≠ some newline then 1 else 0)
      = lineCount A + lineCount B := by
  cases B with
  | nil =>
    have h0 : lineCount ([] : GoString) = 0 := by decide
    simp [h0]
  | cons b B1 =>
    rw [lineCount_count (A ++ b :: B1), lineCount_count A, lineCount_count (b :: B1),
      List.count_append]
    have hne : A ++ b :: B1 ≠ [] := by simp
    have hlast : (A ++ b :: B1).getLast? = (b :: B1).getLast? := by
      rw [List.getLast?_append]
      obtain ⟨x, hx⟩ : ∃ x, (b :: B1).getLast? = some x := by
        cases h : (b :: B1).getLast? with
        | none => simp at h
        | some x => exact ⟨x, rfl⟩
      rw [hx]
      rfl
    rw [hlast]
    have hb : (b :: B1) ≠ [] := by simp
    by_cases h1 : (b :: B1).getLast? = some newline <;>
      by_cases h2 : A = [] <;> by_cases h3 : A.getLast? = some newline <;>
      simp [h1, h2, h3, hne, hb] <;> omega

/-- C15: when `A` is empty or ends with a newline the line count of `A ++ B`
is the sum of the line counts; for all `A` and `B` it is at most the sum and at
least the sum less one. -/
theorem lineCount_append (A B : GoString) :
    ((A = [] ∨ A.getLast? = some newline) →
        lineCount (A ++ B) = lineCount A + lineCount B)
    ∧ (lineCount A : Int) + (lineCount B : Int) - 1 ≤ (lineCount (A ++ B) : Int)
    ∧ lineCount (A ++ B) ≤ lineCount A + lineCount B := by
  have h := lineCount_append_add A B
  refine ⟨?_, ?_, ?_⟩
  · intro hA
    have hif : ¬ (B ≠ [] ∧ A ≠ [] ∧ A.getLast? ≠ some newline) := by
      rintro ⟨_, h1, h2⟩
      rcases hA with hA | hA
      · exact h1 hA
      · exact h2 hA
    rw [if_neg hif] at h
    omega
  · split at h <;> omega
  · split at h <;> omega

theorem lineCount_append_witness :
    lineCount (str "a\nb\n" ++ str "c\nd") = lineCount (str "a\nb\n") + lineCount (str "c\nd")
    ∧ lineCount (str "a\nb" ++ str "c\nd") = 3
    ∧ lineCount (str "a\nb") + lineCount (str "c\nd") = 4 :=
  ⟨(lineCount_append (str "a\nb\n") (str "c\nd")).1 (Or.inr (by decide)), by decide,
    by decide⟩

/-! ## Theorems: the arguments after the file name -/

/-- When the first argument has the syntax of a flag, `parseOne` reads a
flag or fails, whatever the arguments after it. -/
theorem parseOne_flag_syntax (fl : Flags) (s : GoString)
    (h1 : ¬ (s.length < 2 ∨ s.head? ≠ some minus)) (n : Nat)
    (hn : (if s.get? 1 = some minus then 2 else 1) = n)
    (h3 : ¬ (n = 2 ∧ s.length = 2)) :
    (∃ fl1, ∀ r, parseOne fl s r = .seen fl1)
    ∨ (∃ e, ∀ r, parseOne fl s r = .fail e) := by
  have key : ∀ r, parseOne fl s r = parseOne fl s [] := by
    intro r
    unfold parseOne
    rw [if_neg h1, if_neg h1]
    simp only [hn]
    rw [if_neg h3, if_neg h3]
  have notStop : ∀ a, parseOne fl s [] ≠ .stop a := by
    intro a
    unfold parseOne
    rw [if_neg h1]
    simp only [hn]
    rw [if_neg h3]
    split
    · simp
    · split
      · split <;> simp
      · split
        · split <;> simp
        · simp
  cases hX : parseOne fl s [] with
  | seen fl1 => exact Or.inl ⟨fl1, fun r => by rw [key r, hX]⟩
  | stop a => exact absurd hX (notStop a)
  | fail e => exact Or.inr ⟨e, fun r => by rw [key r, hX]⟩

/-- What `parseOne` does with the first argument does not depend on the
arguments after it, which it only hands back when parsing stops: it stops on
the argument, stops after it (`--`), reads a flag, or fails. -/
theorem parseOne_cases (fl : Flags) (s : GoString) :
    (∀ r, parseOne fl s r = .stop (s :: r))
    ∨ (∀ r, parseOne fl s r = .stop r)
    ∨ (∃ fl1, ∀ r, parseOne fl s r = .seen fl1)
    ∨ (∃ e, ∀ r, parseOne fl s r = .fail e) := by
  by_cases h1 : s.length < 2 ∨ s.head? ≠ some minus
  · left
    intro r
    unfold parseOne
    rw [if_pos h1]
  · by_cases h3 : (if s.get? 1 = some minus then 2 else 1) = 2 ∧ s.length = 2
    · right
      left
      intro r
      unfold parseOne
      rw [if_neg h1]
      simp only []
      rw [if_pos h3]
    · right
      right
      exact parseOne_flag_syntax fl s h1 _ rfl h3

theorem Parse_first_positional (pre rest : List GoString) (f : GoString) (fl fl1 : Flags)
    (h : Parse fl (pre ++ [f]) = .ok (fl1, [f])) :
    Parse fl (pre ++ f :: rest) = .ok (fl1, f :: rest) := by
  induction pre generalizing fl with
  | nil =>
    simp only [List.nil_append] at h ⊢
    rw [Parse] at h ⊢
    rcases parseOne_cases fl f with hc | hc | ⟨fl2, hc⟩ | ⟨e, hc⟩
    · rw [hc] at h ⊢
      simp only [Except.ok.injEq, Prod.mk.injEq] at h ⊢
      exact ⟨h.1, trivial⟩
    · rw [hc] at h
      simp at h
    · rw [hc] at h
      simp [Parse] at h
    · rw [hc] at h
      simp at h
  | cons s pre ih =>
    simp only [List.cons_append] at h ⊢
    rw [Parse] at h ⊢
    rcases parseOne_cases fl s with hc | hc | ⟨fl2, hc⟩ | ⟨e, hc⟩
    · rw [hc] at h
      simp at h
    · rw [hc] at h ⊢
      simp only [Except.ok.injEq, Prod.mk.injEq] at h ⊢
      have hpre : pre = [] := by
        have hlen := congrArg List.length h.2
        simp at hlen
        exact hlen
      subst hpre
      exact ⟨h.1, rfl⟩
    · rw [hc] at h ⊢
      exact ih fl2 h
    · rw [hc] at h
      simp at h

/-- C13: when `f` is the first positional argument of `flags ++ [f]`, `sswc`
returns on `flags ++ [f] ++ rest` what it returns on `flags ++ [f]`, for every
file system and stream: parsing stops at `f`, the flag values are those of
`flags`, and the tokens of `rest` are neither read as flags nor as file names,
so that `-l` after `f` selects no count and `-x` after `f` is no parse error. -/
theorem sswc_first_positional_only (flags rest : List GoString) (f : GoString)
    (fl : Flags) (hparse : Parse noFlags (flags ++ [f]) = .ok (fl, [f]))
    (stream : Option Reader) (fs : FileSystem) :
    sswc (flags ++ [f] ++ rest) stream fs = sswc (flags ++ [f]) stream fs
    ∧ Parse noFlags (flags ++ [f] ++ rest) = .ok (fl, f :: rest) := by
  have h2 := Parse_first_positional flags rest f noFlags fl hparse
  have he : flags ++ [f] ++ rest = flags ++ f :: rest := by simp
  rw [he]
  refine ⟨?_, h2⟩
  simp only [sswc, hparse, h2, firstArg]

theorem sswc_first_positional_only_witness :
    sswc ([str "-l"] ++ [str "f"] ++ [str "-w", str "-x", str "g"]) none
        (oneFile (str "f") (str "one two\n") 8)
      = ⟨"1", none, [.readFile (str "f")]⟩
    ∧ sswc ([str "-l", str "--"] ++ [str "-x"] ++ [str "-w"]) none
        (oneFile (str "-x") (str "one two\n") 8)
      = sswc [str "-l", str "--", str "-x"] none (oneFile (str "-x") (str "one two\n") 8) :=
  ⟨(sswc_first_positional_only [str "-l"] [str "-w", str "-x", str "g"] (str "f")
      ⟨false, true, false, false⟩ rfl none (oneFile (str "f") (str "one two\n") 8)).1.trans
      (by decide),
   (sswc_first_positional_only [str "-l", str "--"] [str "-w"] (str "-x")
      ⟨false, true, false, false⟩ rfl none (oneFile (str "-x") (str "one two\n") 8)).1⟩

/-! ## Theorems: decoding a concatenation -/

theorem map_snd_rangeFrom (i k : Nat) (s : GoString) :
    (rangeFrom i k s).map Prod.snd = decodeFrom k s := by
  induction s generalizing i k with
  | nil => cases k <;> simp [rangeFrom, decodeFrom]
  | cons b rest ih =>
    cases k with
    | zero => simp [rangeFrom, decodeFrom, ih]
    | succ k => simp [rangeFrom, decodeFrom, ih]

theorem runes_eq_decodeFrom (s : GoString) : runes s = decodeFrom 0 s := by
  unfold runes rangeString
  exact map_snd_rangeFrom 0 0 s

/-- Decoding looks at no more bytes than the first byte announces. -/
theorem DecodeRune_take (a : Byte) (rest : GoString) :
    DecodeRune (a :: rest) = DecodeRune (a :: rest.take (runeSize a - 1)) := by
  by_cases h1 : a.val < 0x80
  · have h2 : a.val < 0xC2 := by omega
    simp [DecodeRune, runeSize, h1, h2]
  · by_cases h2 : a.val < 0xC2
    · simp [DecodeRune, runeSize, h1, h2]
    · by_cases h3 : a.val < 0xE0
      · rcases rest with _ | ⟨b1, tl⟩ <;> simp [DecodeRune, runeSize, h1, h2, h3]
      · by_cases h4 : a.val < 0xF0
        · rcases rest with _ | ⟨b1, _ | ⟨b2, tl⟩⟩ <;>
            simp [DecodeRune, runeSize, h1, h2, h3, h4]
        · by_cases h5 : a.val < 0xF5
          · rcases rest with _ | ⟨b1, _ | ⟨b2, _ | ⟨b3, tl⟩⟩⟩ <;>
              simp [DecodeRune, runeSize, h1, h2, h3, h4, h5]
          · simp [DecodeRune, runeSize, h1, h2, h3, h4, h5]

theorem DecodeRune_short (a : Byte) (rest : GoString)
    (h : rest.length < runeSize a - 1) : DecodeRune (a :: rest) = (RuneError, 1) := by
  by_cases h1 : a.val < 0x80
  · have h2 : a.val < 0xC2 := by omega
    simp [runeSize, h2] at h
  · by_cases h2 : a.val < 0xC2
    · simp [runeSize, h2] at h
    · by_cases h3 : a.val < 0xE0
      · rcases rest with _ | ⟨b1, tl⟩
        · simp [DecodeRune, h1, h2, h3]
        · simp [runeSize, h2, h3] at h
      · by_cases h4 : a.val < 0xF0
        · rcases rest with _ | ⟨b1, _ | ⟨b2, tl⟩⟩
          · simp [DecodeRune, h1, h2, h3, h4]
          · simp [DecodeRune, h1, h2, h3, h4]
          · simp [runeSize, h2, h3, h4] at h
            omega
        · by_cases h5 : a.val < 0xF5
          · rcases rest with _ | ⟨b1, _ | ⟨b2, _ | ⟨b3, tl⟩⟩⟩
            · simp [DecodeRune, h1, h2, h3, h4, h5]
            · simp [DecodeRune, h1, h2, h3, h4, h5]
            · simp [DecodeRune, h1, h2, h3, h4, h5]
            · simp [runeSize, h2, h3, h4, h5] at h
              omega
          · simp [runeSize, h2, h3, h4, h5] at h

theorem isContinuation_of_inRange (lo hi : Nat) (c : Byte) (hlo : 0x80 ≤ lo)
    (hhi : hi ≤ 0xBF) (h : inRange lo hi c = true) : isContinuation c = true := by
  unfold isContinuation
  unfold inRange at h ⊢
  simp only [Bool.and_eq_true, decide_eq_true_eq] at h ⊢
  omega

theorem DecodeRune_continuation (c : Byte) (rest : GoString)
    (h : isContinuation c = true) : DecodeRune (c :: rest) = (RuneError, 1) := by
  unfold isContinuation inRange at h
  simp only [Bool.and_eq_true, decide_eq_true_eq] at h
  have h1 : ¬ c.val < 0x80 := by omega
  have h2 : c.val < 0xC2 := by omega
  simp [DecodeRune, h1, h2]

/-- The result of decoding at a byte: an error of width 1, a rune of one byte,
or a rune of the announced size, whose other bytes are continuation bytes. -/
theorem DecodeRune_cases (a : Byte) (rest : GoString) :
    DecodeRune (a :: rest) = (RuneError, 1)
    ∨ (runeSize a = 1 ∧ (DecodeRune (a :: rest)).2 = 1)
    ∨ ((DecodeRune (a :: rest)).2 = runeSize a ∧ runeSize a - 1 ≤ rest.length
        ∧ ∀ c ∈ rest.take (runeSize a - 1), isContinuation c = true) := by
  by_cases h1 : a.val < 0x80
  · have h2 : a.val < 0xC2 := by omega
    right; left
    simp [DecodeRune, runeSize, h1, h2]
  · by_cases h2 : a.val < 0xC2
    · left
      simp [DecodeRune, h1, h2]
    · by_cases h3 : a.val < 0xE0
      · rcases rest with _ | ⟨b1, tl⟩
        · left
          simp [DecodeRune, h1, h2, h3]
        · by_cases hv : inRange 0x80 0xBF b1 = true
          · right; right
            simp [DecodeRune, runeSize, h1, h2, h3, hv, isContinuation]
          · left
            simp [DecodeRune, h1, h2, h3, hv]
      · by_cases h4 : a.val < 0xF0
        · rcases rest with _ | ⟨b1, _ | ⟨b2, tl⟩⟩
          · left
            simp [DecodeRune, h1, h2, h3, h4]
          · left
            simp [DecodeRune, h1, h2, h3, h4]
          · by_cases hv1 : inRange (if a.val = 0xE0 then 0xA0 else 0x80)
                (if a.val = 0xED then 0x9F else 0xBF) b1 = true
            · by_cases hv2 : inRange 0x80 0xBF b2 = true
              · right; right
                have hc1 : isContinuation b1 = true :=
                  isContinuation_of_inRange _ _ b1 (by split <;> omega) (by split <;> omega)
                    hv1
                simp [DecodeRune, runeSize, h1, h2, h3, h4, hv1, hv2, isContinuation] at hc1 ⊢
                exact hc1
              · left
                simp [DecodeRune, h1, h2, h3, h4, hv1, hv2]
            · left
              simp [DecodeRune, h1, h2, h3, h4, hv1]
        · by_cases h5 : a.val < 0xF5
          · rcases rest with _ | ⟨b1, _ | ⟨b2, _ | ⟨b3, tl⟩⟩⟩
            · left
              simp [DecodeRune, h1, h2, h3, h4, h5]
            · left
              simp [DecodeRune, h1, h2, h3, h4, h5]
            · left
              simp [DecodeRune, h1, h2, h3, h4, h5]
            · by_cases hv1 : inRange (if a.val = 0xF0 then 0x90 else 0x80)
                  (if a.val = 0xF4 then 0x8F else 0xBF) b1 = true
              · by_cases hv2 : inRange 0x80 0xBF b2 = true
                · by_cases hv3 : inRange 0x80 0xBF b3 = true
                  · right; right
                    have hc1 : isContinuation b1 = true :=
                      isContinuation_of_inRange _ _ b1 (by split <;> omega)
                        (by split <;> omega) hv1
                    simp [DecodeRune, runeSize, h1, h2, h3, h4, h5, hv1, hv2, hv3,
                      isContinuation] at hc1 ⊢
                    exact hc1
                  · left
                    simp [DecodeRune, h1, h2, h3, h4, h5, hv1, hv2, hv3]
                · left
                  simp [DecodeRune, h1, h2, h3, h4, h5, hv1, hv2]
              · left
                simp [DecodeRune, h1, h2, h3, h4, h5, hv1]
          · right; left
            simp [DecodeRune, runeSize, h1, h2, h3, h4, h5]

theorem decodeFrom_zero_cons (b : Byte) (rest : GoString) :
    decodeFrom 0 (b :: rest)
      = (DecodeRune (b :: rest)).1 :: decodeFrom ((DecodeRune (b :: rest)).2 - 1) rest :=
  rfl

theorem decodeFrom_drop (k : Nat) (s : GoString) :
    decodeFrom k s = decodeFrom 0 (s.drop k) := by
  induction s generalizing k with
  | nil => cases k <;> simp [decodeFrom]
  | cons b rest ih =>
    cases k with
    | zero => simp
    | succ k => simp [decodeFrom, ih k]

theorem decodeFrom_continuation_append (cs s : GoString)
    (h : ∀ c ∈ cs, isContinuation c = true) :
    decodeFrom 0 (cs ++ s) = List.replicate cs.length RuneError ++ decodeFrom 0 s := by
  induction cs with
  | nil => simp
  | cons c cs ih =>
    have hc := h c (List.mem_cons_self _ _)
    have hcs : ∀ d ∈ cs, isContinuation d = true :=
      fun d hd => h d (List.mem_cons_of_mem _ hd)
    rw [List.cons_append, decodeFrom, DecodeRune_continuation c (cs ++ s) hc]
    simp only [Nat.sub_self, List.length_cons, List.replicate_succ, List.cons_append]
    rw [ih hcs]

/-- The runes of a concatenation: those of `A` followed by those of `B`, unless
a rune is encoded by bytes of both; then the bytes of `A` in it, and the bytes
of `B` in it, which are continuation bytes, are each an error rune in `A` and
in `B` taken alone. -/
theorem decodeFrom_append (A B : GoString) (k : Nat) (hk : k ≤ A.length) :
    decodeFrom k (A ++ B) = decodeFrom k A ++ decodeFrom 0 B
    ∨ ∃ (Y Z : List Nat) (r j m : Nat) (c : Byte) (B1 : GoString),
        1 ≤ j ∧ 1 ≤ m ∧ B = c :: B1 ∧ isContinuation c = true
        ∧ decodeFrom k A = Y ++ List.replicate j RuneError
        ∧ decodeFrom 0 B = List.replicate m RuneError ++ Z
        ∧ decodeFrom k (A ++ B) = Y ++ r :: Z := by
  induction A generalizing k with
  | nil =>
    left
    have hk0 : k = 0 := by simpa using hk
    subst hk0
    simp [decodeFrom]
  | cons a A1 ih =>
    cases k with
    | succ k =>
      simp only [List.cons_append, decodeFrom]
      exact ih k (by simpa using hk)
    | zero =>
      have hsync : DecodeRune (a :: (A1 ++ B)) = DecodeRune (a :: A1) →
          (DecodeRune (a :: A1)).2 - 1 ≤ A1.length →
          (decodeFrom 0 (a :: A1 ++ B) = decodeFrom 0 (a :: A1) ++ decodeFrom 0 B
          ∨ ∃ (Y Z : List Nat) (r j m : Nat) (c : Byte) (B1 : GoString),
              1 ≤ j ∧ 1 ≤ m ∧ B = c :: B1 ∧ isContinuation c = true
              ∧ decodeFrom 0 (a :: A1) = Y ++ List.replicate j RuneError
              ∧ decodeFrom 0 B = List.replicate m RuneError ++ Z
              ∧ decodeFrom 0 (a :: A1 ++ B) = Y ++ r :: Z) := by
        intro heq hw
        rw [List.cons_append, decodeFrom_zero_cons, decodeFrom_zero_cons, heq]
        rcases ih ((DecodeRune (a :: A1)).2 - 1) hw with h | ⟨Y, Z, r, j, m, c, B1, h⟩
        · left
          rw [h]
          rfl
        · right
          refine ⟨(DecodeRune (a :: A1)).1 :: Y, Z, r, j, m, c, B1, h.1, h.2.1, h.2.2.1,
            h.2.2.2.1, ?_, h.2.2.2.2.2.1, ?_⟩
          · rw [h.2.2.2.2.1]
            rfl
          · rw [h.2.2.2.2.2.2]
            rfl
      by_cases hlen : runeSize a - 1 ≤ A1.length
      · apply hsync
        · rw [DecodeRune_take a (A1 ++ B), DecodeRune_take a A1,
            List.take_append_of_le_length hlen]
        · rcases DecodeRune_cases a A1 with h | h | h
          · rw [h]; simp
          · rw [h.2]; simp
          · rw [h.1]; exact hlen
      · have hshort : DecodeRune (a :: A1) = (RuneError, 1) :=
          DecodeRune_short a A1 (by omega)
        rcases DecodeRune_cases a (A1 ++ B) with h | h | h
        · apply hsync
          · rw [h, hshort]
          · rw [hshort]; simp
        · omega
        · obtain ⟨hw, hn, hcont⟩ := h
          right
          have htake : (A1 ++ B).take (runeSize a - 1)
              = A1 ++ B.take (runeSize a - 1 - A1.length) := by
            rw [List.take_append_eq_append_take, List.take_of_length_le (by omega)]
          rw [htake] at hcont
          have hA1 : ∀ d ∈ A1, isContinuation d = true :=
            fun d hd => hcont d (List.mem_append_left _ hd)
          have hB : ∀ d ∈ B.take (runeSize a - 1 - A1.length), isContinuation d = true :=
            fun d hd => hcont d (List.mem_append_right _ hd)
          have hBlen : runeSize a - 1 - A1.length ≤ B.length := by
            rw [List.length_append] at hn
            omega
          have hm : 1 ≤ runeSize a - 1 - A1.length := by omega
          obtain ⟨c, B1, hBc⟩ : ∃ c B1, B = c :: B1 := by
            cases B with
            | nil => simp at hBlen; omega
            | cons c B1 => exact ⟨c, B1, rfl⟩
          have hc : isContinuation c = true := by
            apply hB
            rw [hBc]
            obtain ⟨m1, hm1⟩ : ∃ m1, runeSize a - 1 - A1.length = m1 + 1 :=
              ⟨runeSize a - 1 - A1.length - 1, by omega⟩
            rw [hm1]
            simp
          refine ⟨[], decodeFrom 0 (B.drop (runeSize a - 1 - A1.length)),
            (DecodeRune (a :: (A1 ++ B))).1, A1.length + 1, runeSize a - 1 - A1.length,
            c, B1, by omega, hm, hBc, hc, ?_, ?_, ?_⟩
          · rw [decodeFrom_zero_cons, hshort]
            have h0 := decodeFrom_continuation_append A1 [] hA1
            have hnil : decodeFrom 0 ([] : GoString) = [] := rfl
            rw [List.append_nil, hnil, List.append_nil] at h0
            simp only [Nat.sub_self, List.nil_append, List.replicate_succ]
            rw [h0]
          · have h0 := decodeFrom_continuation_append
              (B.take (runeSize a - 1 - A1.length)) (B.drop (runeSize a - 1 - A1.length)) hB
            rw [List.take_append_drop, List.length_take, Nat.min_eq_left hBlen] at h0
            exact h0
          · rw [List.cons_append, decodeFrom_zero_cons, List.nil_append, hw,
              decodeFrom_drop (runeSize a - 1) (A1 ++ B),
              List.drop_append_eq_append_drop, List.drop_of_length_le (by omega)]
            rfl

/-! ## Theorems: wordCount under concatenation -/

theorem card_maximalRuns_concat (ws : List Bool) (a : Bool) :
    (maximalRuns (ws ++ [a])).card
      = (maximalRuns ws).card + (if a = false ∧ ws.getLast? ≠ some false then 1 else 0) := by
  rw [card_maximalRuns_snoc, List.getLast?_eq_getElem?]

/-- The number of maximal runs of a concatenation: one run is lost exactly
when the first part ends, and the second part starts, outside white space. -/
theorem card_maximalRuns_append (x y : List Bool) :
    (maximalRuns (x ++ y)).card
        + (if x.getLast? = some false ∧ y.head? = some false then 1 else 0)
      = (maximalRuns x).card + (maximalRuns y).card := by
  induction y using List.reverseRecOn with
  | nil => simp [card_maximalRuns_nil]
  | append_singleton y a ih =>
    rw [← List.append_assoc, card_maximalRuns_concat (x ++ y) a, card_maximalRuns_concat y a]
    cases y with
    | nil =>
      simp only [List.append_nil, List.nil_append, card_maximalRuns_nil, List.head?_cons,
        List.getLast?_nil] at ih ⊢
      cases a <;> by_cases hx : x.getLast? = some false <;> simp [hx]
    | cons b y1 =>
      have hlast : (x ++ b :: y1).getLast? = (b :: y1).getLast? := by
        rw [List.getLast?_append]
        cases h : (b :: y1).getLast? with
        | none => simp at h
        | some v => rfl
      have hhead : (b :: y1 ++ [a]).head? = (b :: y1).head? := rfl
      rw [hlast, hhead]
      omega

theorem card_maximalRuns_replicate (j : Nat) (hj : 1 ≤ j) :
    (maximalRuns (List.replicate j false)).card = 1 := by
  induction j with
  | zero => omega
  | succ j ih =>
    rw [List.replicate_succ', card_maximalRuns_concat]
    rcases Nat.eq_zero_or_pos j with h0 | hpos
    · subst h0
      simp [card_maximalRuns_nil]
    · rw [ih hpos, List.getLast?_replicate]
      have hne : j ≠ 0 := by omega
      simp [hne]

/-- The runs when a character is encoded by bytes of both parts: `y` holds the
characters before it, `z` those after it, `s` tells whether it is white space;
taken alone, the first part ends with `j` error runes and the second starts
with `m` error runes. -/
theorem card_maximalRuns_straddle (y z : List Bool) (s : Bool) (j m : Nat)
    (hj : 1 ≤ j) (hm : 1 ≤ m) :
    (maximalRuns (y ++ s :: z)).card
        ≤ (maximalRuns (y ++ List.replicate j false)).card
          + (maximalRuns (List.replicate m false ++ z)).card
    ∧ (maximalRuns (y ++ List.replicate j false)).card
          + (maximalRuns (List.replicate m false ++ z)).card
        ≤ (maximalRuns (y ++ s :: z)).card + 2 := by
  have ha := card_maximalRuns_append y (List.replicate j false)
  have hb := card_maximalRuns_append (List.replicate m false) z
  have hab := card_maximalRuns_append (y ++ [s]) z
  have hys := card_maximalRuns_concat y s
  have he : y ++ [s] ++ z = y ++ s :: z := by simp
  rw [he] at hab
  rw [card_maximalRuns_replicate j hj, List.head?_replicate] at ha
  rw [card_maximalRuns_replicate m hm, List.getLast?_replicate] at hb
  rw [hys, List.getLast?_concat] at hab
  have hj0 : j ≠ 0 := by omega
  have hm0 : m ≠ 0 := by omega
  simp only [hj0, hm0, if_false, and_true, true_and] at ha hb
  cases s <;> by_cases hy : y.getLast? = some false <;>
    by_cases hz : z.head? = some false <;>
    simp [hy, hz] at ha hb hab <;> omega

theorem IsSpace_RuneError : IsSpace RuneError = false := by decide

/-- The characters of a concatenation, classified: those of the two parts, or
the straddling case of `decodeFrom_append`. -/
theorem runes_append_cases (A B : GoString) :
    runes (A ++ B) = runes A ++ runes B
    ∨ ∃ (y z : List Bool) (s : Bool) (j m : Nat) (c : Byte) (B1 : GoString),
        1 ≤ j ∧ 1 ≤ m ∧ B = c :: B1 ∧ isContinuation c = true
        ∧ whitespace A = y ++ List.replicate j false
        ∧ whitespace B = List.replicate m false ++ z
        ∧ whitespace (A ++ B) = y ++ s :: z := by
  rcases decodeFrom_append A B 0 (Nat.zero_le _) with h | ⟨Y, Z, r, j, m, c, B1, h⟩
  · left
    rw [runes_eq_decodeFrom, runes_eq_decodeFrom, runes_eq_decodeFrom]
    exact h
  · right
    obtain ⟨hj, hm, hB, hc, hA, hBr, hAB⟩ := h
    refine ⟨Y.map IsSpace, Z.map IsSpace, IsSpace r, j, m, c, B1, hj, hm, hB, hc, ?_, ?_, ?_⟩
    · unfold whitespace
      rw [runes_eq_decodeFrom, hA, List.map_append, List.map_replicate, IsSpace_RuneError]
    · unfold whitespace
      rw [runes_eq_decodeFrom, hBr, List.map_append, List.map_replicate, IsSpace_RuneError]
    · unfold whitespace
      rw [runes_eq_decodeFrom, hAB, List.map_append, List.map_cons]

theorem wordCount_append_of_runes (A B : GoString)
    (h : runes (A ++ B) = runes A ++ runes B) :
    wordCount (A ++ B)
        + (if (whitespace A).getLast? = some false ∧ (whitespace B).head? = some false
            then 1 else 0)
      = wordCount A + wordCount B := by
  have hw : whitespace (A ++ B) = whitespace A ++ whitespace B := by
    unfold whitespace
    rw [h, List.map_append]
  rw [wordCount_eq_card, wordCount_eq_card, wordCount_eq_card, hw]
  exact card_maximalRuns_append _ _

theorem wordCount_append_bounds (A B : GoString) :
    wordCount (A ++ B) ≤ wordCount A + wordCount B
    ∧ wordCount A + wordCount B ≤ wordCount (A ++ B) + 2 := by
  rcases runes_append_cases A B with h | ⟨y, z, s, j, m, c, B1, hj, hm, _, _, hA, hB, hAB⟩
  · have h2 := wordCount_append_of_runes A B h
    constructor <;> (split at h2 <;> omega)
  · rw [wordCount_eq_card, wordCount_eq_card, wordCount_eq_card, hA, hB, hAB]
    exact card_maximalRuns_straddle y z s j m hj hm

theorem runes_append_of_not_continuation (A B : GoString)
    (h : B = [] ∨ ∃ c B1, B = c :: B1 ∧ isContinuation c = false) :
    runes (A ++ B) = runes A ++ runes B := by
  rcases runes_append_cases A B with h2 | ⟨y, z, s, j, m, c, B1, _, _, hB, hc, _, _, _⟩
  · exact h2
  · rcases h with h | ⟨d, B2, hd, hcont⟩
    · rw [h] at hB
      simp at hB
    · rw [hd] at hB
      simp only [List.cons.injEq] at hB
      rw [hB.1, hc] at hcont
      simp at hcont

theorem wordCount_nil : wordCount [] = 0 := by decide

theorem runes_nil : runes [] = [] := by decide

theorem wordCount_append_eq (A B : GoString)
    (h : A = [] ∨ B = [] ∨ (whitespace A).getLast? = some true
      ∨ (whitespace B).head? = some true) :
    wordCount (A ++ B) = wordCount A + wordCount B := by
  rcases h with h | h | h | h
  · subst h
    simp [wordCount_nil]
  · subst h
    simp [wordCount_nil]
  · rcases runes_append_cases A B with h2 | ⟨y, z, s, j, m, c, B1, hj, _, _, _, hA, _, _⟩
    · have h3 := wordCount_append_of_runes A B h2
      rw [h] at h3
      simpa using h3
    · rw [hA, List.getLast?_append, List.getLast?_replicate] at h
      have hj0 : j ≠ 0 := by omega
      simp [hj0] at h
  · rcases runes_append_cases A B with h2 | ⟨y, z, s, j, m, c, B1, _, hm, _, _, _, hB, _⟩
    · have h3 := wordCount_append_of_runes A B h2
      rw [h] at h3
      simpa using h3
    · rw [hB, List.head?_append, List.head?_replicate] at h
      have hm0 : m ≠ 0 := by omega
      simp [hm0] at h

theorem wordCount_append_space (A B : GoString) :
    wordCount (A ++ str " " ++ B) = wordCount A + wordCount B := by
  have hsp : str " " = [32] := by decide
  rw [hsp]
  have hr : runes (A ++ [32]) = runes A ++ runes [32] :=
    runes_append_of_not_continuation A [32] (Or.inr ⟨32, [], rfl, by decide⟩)
  have h32 : runes ([32] : GoString) = [32] := by decide
  have h1 : wordCount (A ++ [32]) = wordCount A := by
    have h := wordCount_append_eq A [32] (Or.inr (Or.inr (Or.inr (by decide))))
    rw [h]
    have h0 : wordCount ([32] : GoString) = 0 := by decide
    rw [h0, Nat.add_zero]
  have hlast : (whitespace (A ++ [32])).getLast? = some true := by
    unfold whitespace
    rw [hr, h32, List.map_append, List.map_singleton, List.getLast?_concat]
    have : IsSpace 32 = true := by decide
    rw [this]
  rw [wordCount_append_eq (A ++ [32]) B (Or.inr (Or.inr (Or.inl hlast))), h1]

/-- C16, as stated, fails: the two bytes of the white space character U+0085
are each one word, and together no word, so that more than one word is lost. -/
theorem wordCount_append_loses_two :
    wordCount [0xC2] = 1 ∧ wordCount [0x85] = 1 ∧ wordCount ([0xC2] ++ [0x85]) = 0
    ∧ ¬ ((wordCount [0xC2] : Int) + (wordCount [0x85] : Int) - 1
          ≤ (wordCount ([0xC2] ++ [0x85]) : Int)) := by
  decide

/-- C16, amended: for all texts the word count of `A ++ B` is at most the sum
of the word counts and at least the sum less two; it is at least the sum less
one when the characters of `A ++ B` are those of `A` followed by those of `B`,
as they are when `B` is empty or does not start with a continuation byte; it
is the sum when `A` is empty, `B` is empty, `A` ends with a white space
character or `B` starts with one, and so for `A ++ " " ++ B`. -/
theorem wordCount_append (A B : GoString) :
    wordCount (A ++ B) ≤ wordCount A + wordCount B
    ∧ (wordCount A : Int) + (wordCount B : Int) - 2 ≤ (wordCount (A ++ B) : Int)
    ∧ (runes (A ++ B) = runes A ++ runes B →
        (wordCount A : Int) + (wordCount B : Int) - 1 ≤ (wordCount (A ++ B) : Int))
    ∧ ((B = [] ∨ ∃ c B1, B = c :: B1 ∧ isContinuation c = false) →
        runes (A ++ B) = runes A ++ runes B)
    ∧ ((A = [] ∨ B = [] ∨ (whitespace A).getLast? = some true
          ∨ (whitespace B).head? = some true) →
        wordCount (A ++ B) = wordCount A + wordCount B)
    ∧ wordCount (A ++ str " " ++ B) = wordCount A + wordCount B := by
  have hb := wordCount_append_bounds A B
  refine ⟨hb.1, by omega, ?_, runes_append_of_not_continuation A B,
    wordCount_append_eq A B, wordCount_append_space A B⟩
  intro hr
  have h := wordCount_append_of_runes A B hr
  split at h <;> omega

theorem wordCount_append_witness :
    (wordCount (str "one tw") : Int) + (wordCount (str "o three") : Int) - 1
        ≤ (wordCount (str "one tw" ++ str "o three") : Int)
    ∧ wordCount (str "one " ++ str "two") = wordCount (str "one ") + wordCount (str "two") :=
  ⟨(wordCount_append (str "one tw") (str "o three")).2.2.1
      ((wordCount_append (str "one tw") (str "o three")).2.2.2.1
        (Or.inr ⟨111, str " three", by decide, by decide⟩)),
   (wordCount_append (str "one ") (str "two")).2.2.2.2.1
      (Or.inr (Or.inr (Or.inl (by decide))))⟩

end Sswc
